import Mathlib

/-!
# Verification of the crawl engine of `src/crawler.js`

This file gives a shallow embedding of the `DistributedWebCrawler` class:
the URL frontier (`urlQueue`), the visited / discovered sets, the worker
pool, the retry loop of `fetchAndParse`, the slow-host state
(`slowHosts` / `hostDelays`), and the `crawl` entry point.

The JavaScript program runs single-threaded with cooperative concurrency:
a worker only yields control at an `await` (the fetch, the backoff sleeps
and the politeness sleep).  The code between two suspension points is
therefore atomic with respect to the other workers.  We model one crawl
run as a labelled transition system: a state carries the shared crawl
state and the phase of every worker, and a scheduler label picks which
worker runs its next synchronous block.  URLs are coded as natural
numbers; the network is abstracted by a `Graph` giving, for every URL,
the list of absolute http links its page contains (the code's
`foundUrls`), its origin, and whether it parses.
-/

set_option maxHeartbeats 1000000

namespace Crawler

/-- Abstraction of the network and of URL parsing: `links u` is the list
of absolute http URLs extracted from the page at `u` (the list built at
crawler.js lines 213-243 and returned as `foundUrls`), `origin u` is the
URL's scheme+host+port (`new URL(u).origin`), `host u` its hostname, and
`parseable u` says whether `new URL(u)` succeeds. -/
structure Graph where
  links : Nat → List Nat
  origin : Nat → Nat
  host : Nat → Nat
  parseable : Nat → Bool

/-- `isSameOrigin(urlString, origin)` (crawler.js lines 278-285): parse
the URL and compare its origin with the given one; a parse failure
returns `false`. -/
def isSameOrigin (g : Graph) (u : Nat) (o : Nat) : Bool :=
  g.parseable u && (g.origin u == o)

/-- A frontier entry `{url, depth}` (crawler.js lines 89 and 141).  The
field `disc` is ghost provenance recording the page on which the URL was
discovered (`none` for the seed); it is never read by any transition. -/
structure Entry where
  url : Nat
  depth : Nat
  disc : Option Nat
deriving DecidableEq

/-- The phase of one worker between the suspension points of the
cooperative execution: `idle` at the top of the `while` loop of
`worker()`, `fetching e` suspended inside `fetchAndParse` for entry `e`,
`sleeping` inside the politeness sleep, `done` after the loop exits. -/
inductive WStatus where
  | idle
  | fetching (e : Entry)
  | sleeping
  | done
deriving DecidableEq

/-- Shared state of one crawl run plus the worker pool: the frontier
`urlQueue`, the sets `visitedUrls` and `discoveredUrls` (modelled as
lists without duplicates by construction), the collected `results`, the
URLs for which an `error` event was emitted, and the phase of each of
the `maxConcurrency` workers. -/
structure CState where
  urlQueue : List Entry
  visitedUrls : List Nat
  discoveredUrls : List Nat
  results : List Entry
  errors : List Nat
  workers : List WStatus
deriving DecidableEq

/-- `this.discoveredUrls.add(absoluteUrl)` executed for every extracted
link (crawler.js lines 221 and 237): set-insertion of each element of
`vs` in order. -/
def addAll (disc : List Nat) (vs : List Nat) : List Nat :=
  vs.foldl (fun d v => if d.contains v then d else v :: d) disc

/-- The entries the worker pushes onto the queue after fetching `e`
(crawler.js lines 134-143): every found URL that is not yet visited and
whose origin equals the fetched page's own origin, at depth
`e.depth + 1`. -/
def admitLinks (g : Graph) (visited : List Nat) (e : Entry) : List Entry :=
  ((g.links e.url).filter
      (fun v => !(visited.contains v) && isSameOrigin g v (g.origin e.url))).map
    (fun v => ⟨v, e.depth + 1, some e.url⟩)

/-- Scheduler labels: `take i` runs worker `i`'s synchronous dequeue
block (lines 116-126), `finish i` resolves worker `i`'s fetch
successfully and runs the synchronous admit block (lines 129-146),
`fail i` resolves it with retries exhausted and runs the catch block
(lines 147-157), `wake i` ends its politeness sleep. -/
inductive Label where
  | take (i : Nat)
  | finish (i : Nat)
  | fail (i : Nat)
  | wake (i : Nat)
deriving DecidableEq

/-- One atomic step of the interleaving semantics.  `none` means the
label is not enabled in the given state.

This transition system deliberately over-approximates the program's
schedules: it lets an idle worker defer its dequeue, whereas the real
loop (line 116) exits permanently the moment it observes an empty
queue — in fact, since an async function body runs synchronously up to
its first `await`, worker 0 claims the single seed before workers
`1..n-1` even start, and they all exit immediately, leaving one
sequential worker.  Universal statements proved over this larger set of
schedules therefore hold a fortiori of the program; the faithful
sequential execution itself is modelled separately by `workerLoop`
below. -/
def applyLabel (g : Graph) (maxDepth : Nat) (s : CState) : Label → Option CState
  | .take i =>
    match s.workers.get? i with
    | some .idle =>
      match s.urlQueue with
      | [] => some { s with workers := s.workers.set i .done }
      | e :: rest =>
        if s.visitedUrls.contains e.url then some { s with urlQueue := rest }
        else if maxDepth < e.depth then some { s with urlQueue := rest }
        else some { s with urlQueue := rest,
                           visitedUrls := e.url :: s.visitedUrls,
                           workers := s.workers.set i (.fetching e) }
    | _ => none
  | .finish i =>
    match s.workers.get? i with
    | some (.fetching e) =>
      some { s with urlQueue := s.urlQueue ++ admitLinks g s.visitedUrls e,
                    discoveredUrls := addAll s.discoveredUrls (g.links e.url),
                    results := s.results ++ [e],
                    workers := s.workers.set i .sleeping }
    | _ => none
  | .fail i =>
    match s.workers.get? i with
    | some (.fetching e) =>
      some { s with errors := s.errors ++ [e.url],
                    workers := s.workers.set i .sleeping }
    | _ => none
  | .wake i =>
    match s.workers.get? i with
    | some .sleeping => some { s with workers := s.workers.set i .idle }
    | _ => none

/-- Run a schedule: apply the labels in order; `none` if some label is
not enabled. -/
def run (g : Graph) (maxDepth : Nat) : CState → List Label → Option CState
  | s, [] => some s
  | s, l :: tr =>
    match applyLabel g maxDepth s l with
    | some s' => run g maxDepth s' tr
    | none => none

/-- The state right after `crawl` seeded the queue and spawned the
workers (crawler.js lines 75-101): the frontier holds the seed at depth
0, the seed is in the discovered set, and the `n = maxConcurrency`
workers are at the top of their loops. -/
def initState (seed : Nat) (n : Nat) : CState :=
  { urlQueue := [⟨seed, 0, none⟩],
    visitedUrls := [],
    discoveredUrls := [seed],
    results := [],
    errors := [],
    workers := List.replicate n .idle }

/-- The run is over: every worker has returned from `worker()`, so
`Promise.all` at line 103 has resolved. -/
def terminal (s : CState) : Bool := s.workers.all (fun w => w == .done)

/-- The entries admitted to the frontier by one step (empty except for a
successful fetch completion). -/
def newAdmissions (g : Graph) (s : CState) : Label → List Entry
  | .finish i =>
    match s.workers.get? i with
    | some (.fetching e) => admitLinks g s.visitedUrls e
    | _ => []
  | _ => []

/-- All entries admitted to the frontier along a schedule. -/
def admittedDuring (g : Graph) (maxDepth : Nat) : CState → List Label → List Entry
  | _, [] => []
  | s, l :: tr =>
    match applyLabel g maxDepth s l with
    | some s' => newAdmissions g s l ++ admittedDuring g maxDepth s' tr
    | none => []

/-- All entries ever admitted to the frontier: the initial seeding plus
every admission performed during the run. -/
def everAdmitted (g : Graph) (maxDepth : Nat) (s : CState) (tr : List Label) :
    List Entry :=
  s.urlQueue ++ admittedDuring g maxDepth s tr

/-- `Path g seed u d`: the page at `u` is reachable from `seed` in
exactly `d` link hops through the graph. -/
inductive Path (g : Graph) (seed : Nat) : Nat → Nat → Prop
  | refl : Path g seed seed 0
  | step {u v : Nat} {d : Nat} :
      Path g seed u d → v ∈ g.links u → Path g seed v (d + 1)

/-! ## The retry loop of `fetchAndParse` (crawler.js lines 165-273)

The loop `for (let attempt = 0; attempt <= retries; attempt++)` is
modelled as a recursion on the number of attempts still allowed after
the current one.  `outcome i` tells whether attempt number `i` succeeds
(the network is an oracle).  The function returns the list of backoff
sleep durations performed, the total number of attempts issued, and
whether the fetch finally succeeded (`false` means the last error is
rethrown to the worker). -/

/-- One unrolling of the retry loop starting at attempt number
`attempt`, with `rem` further attempts allowed after this one.  On
failure with attempts remaining the code sleeps
`retryDelay * Math.pow(2, attempt)` (line 262) and retries; on failure
at the last attempt it throws. -/
def attemptLoop (outcome : Nat → Bool) (retryDelay : Nat) :
    Nat → Nat → List Nat × Nat × Bool
  | attempt, 0 => ([], 1, outcome attempt)
  | attempt, rem + 1 =>
    if outcome attempt then ([], 1, true)
    else
      (retryDelay * 2 ^ attempt ::
          (attemptLoop outcome retryDelay (attempt + 1) rem).1,
        (attemptLoop outcome retryDelay (attempt + 1) rem).2.1 + 1,
        (attemptLoop outcome retryDelay (attempt + 1) rem).2.2)

/-- The whole retry behaviour of `fetchAndParse`: attempts are numbered
from 0 and the budget is `maxRetries + 1` attempts. -/
def fetchAndParseRetry (outcome : Nat → Bool) (maxRetries retryDelay : Nat) :
    List Nat × Nat × Bool :=
  attemptLoop outcome retryDelay 0 maxRetries

/-! ## Slow-host state (crawler.js lines 67-68, 172-177, 192-199) -/

/-- The instance fields `slowHosts : Set` and `hostDelays : Map`, with
hostnames coded as naturals. -/
structure HostState where
  slowHosts : List Nat
  hostDelays : List (Nat × Nat)
deriving DecidableEq

/-- `hostDelays.get(h)`. -/
def lookupDelay (m : List (Nat × Nat)) (h : Nat) : Option Nat :=
  match m.find? (fun p => p.1 == h) with
  | some p => some p.2
  | none => none

/-- `hostDelays.set(h, d)`. -/
def setDelay (m : List (Nat × Nat)) (h d : Nat) : List (Nat × Nat) :=
  if (m.find? (fun p => p.1 == h)).isSome then
    m.map (fun p => if p.1 == h then (h, d) else p)
  else (h, d) :: m

/-- Lines 172-177: before issuing a request attempt, if the host is in
`slowHosts`, sleep `this.hostDelays.get(domain) || slowHostThreshold`
milliseconds (JS `||`: both a missing entry and a recorded 0 fall back
to the threshold).  Returns the duration slept, `none` if no sleep. -/
def preSleep (st : HostState) (slowHostThreshold : Nat) (h : Nat) : Option Nat :=
  if st.slowHosts.contains h then
    some (match lookupDelay st.hostDelays h with
          | some d => if d == 0 then slowHostThreshold else d
          | none => slowHostThreshold)
  else none

/-- Lines 192-199: after a successful response with measured time `rt`,
`if (responseTime > this.config.slowHostThreshold)` — a strict
comparison — add the host to `slowHosts` and record
`Math.min(responseTime, 10000)` in `hostDelays`. -/
def updateSlow (st : HostState) (slowHostThreshold : Nat) (h rt : Nat) : HostState :=
  if slowHostThreshold < rt then
    { slowHosts := if st.slowHosts.contains h then st.slowHosts else h :: st.slowHosts,
      hostDelays := setDelay st.hostDelays h (min rt 10000) }
  else st

/-! ## The `crawl` entry point (crawler.js lines 74-110) -/

/-- The mutable per-instance state touched by `crawl` (constructor lines
41-68). -/
structure Instance where
  visitedUrls : List Nat
  discoveredUrls : List Nat
  urlQueue : List Entry
  results : List Entry
  domainsCrawled : List Nat
  slowHosts : List Nat
  hostDelays : List (Nat × Nat)
deriving DecidableEq

/-- The synchronous prefix of `crawl(seedUrl)` (lines 75-95): clear
`visitedUrls`, `discoveredUrls`, `urlQueue`, `results` and
`domainsCrawled` — and no other field — then parse the seed; on success
push it at depth 0, add it to the discovered set and record its
hostname; on parse failure throw `Invalid seed URL`. -/
def crawlStart (g : Graph) (inst : Instance) (seed : Nat) : Except String Instance :=
  let cleared : Instance :=
    { inst with visitedUrls := [], discoveredUrls := [], urlQueue := [],
                results := [], domainsCrawled := [] }
  if g.parseable seed then
    Except.ok { cleared with urlQueue := [⟨seed, 0, none⟩],
                             discoveredUrls := [seed],
                             domainsCrawled := [g.host seed] }
  else Except.error "Invalid seed URL"

/-- The whole of `crawl(seedUrl)` as observed through the transition
system: validation happens before the workers are created (lines 86-101),
so an unparseable seed yields the error with no worker ever started; a
parseable seed yields whatever the scheduled run produces. -/
def crawl (g : Graph) (maxDepth n : Nat) (seed : Nat) (tr : List Label) :
    Except String (Option CState) :=
  if g.parseable seed then Except.ok (run g maxDepth (initState seed n) tr)
  else Except.error "Invalid seed URL"

/-! ## Generic helper lemmas -/

theorem sum_map_set (f : WStatus → Nat) :
    ∀ (l : List WStatus) (i : Nat) (a b : WStatus), l.get? i = some a →
      ((l.set i b).map f).sum + f a = (l.map f).sum + f b := by
  intro l
  induction l with
  | nil => intro i a b h; simp at h
  | cons x xs ih =>
    intro i a b h
    cases i with
    | zero =>
      simp only [List.get?] at h
      injection h with h; subst h
      show ((b :: xs).map f).sum + f x = ((x :: xs).map f).sum + f b
      simp only [List.map, List.sum_cons]
      omega
    | succ i =>
      simp only [List.get?] at h
      have := ih i a b h
      show ((x :: xs.set i b).map f).sum + f a = ((x :: xs).map f).sum + f b
      simp only [List.map, List.sum_cons]
      omega

theorem mem_addAll_left :
    ∀ (vs : List Nat) {disc : List Nat} {u : Nat}, u ∈ disc → u ∈ addAll disc vs := by
  intro vs
  induction vs with
  | nil => intro disc u h; exact h
  | cons v vs ih =>
    intro disc u h
    show u ∈ addAll (if disc.contains v then disc else v :: disc) vs
    by_cases hc : disc.contains v
    · rw [if_pos hc]; exact ih h
    · rw [if_neg hc]; exact ih (List.mem_cons_of_mem _ h)

theorem mem_addAll_right :
    ∀ (vs : List Nat) {disc : List Nat} {u : Nat}, u ∈ vs → u ∈ addAll disc vs := by
  intro vs
  induction vs with
  | nil => intro disc u h; simp at h
  | cons v vs ih =>
    intro disc u h
    show u ∈ addAll (if disc.contains v then disc else v :: disc) vs
    rcases List.mem_cons.mp h with h | h
    · subst h
      by_cases hc : disc.contains u
      · rw [if_pos hc]; exact mem_addAll_left vs (List.elem_iff.mp hc)
      · rw [if_neg hc]; exact mem_addAll_left vs (List.mem_cons_self _ _)
    · by_cases hc : disc.contains v
      · rw [if_pos hc]; exact ih h
      · rw [if_neg hc]; exact ih h

/-- Exhaustive description of the enabled transitions: every successful
step is one of the seven synchronous blocks of the worker code. -/
theorem applyLabel_cases (g : Graph) (md : Nat) {s s' : CState} {l : Label}
    (h : applyLabel g md s l = some s') :
    (∃ i, s.workers.get? i = some .idle ∧ s.urlQueue = [] ∧
      s' = { s with workers := s.workers.set i .done }) ∨
    (∃ i e rest, s.workers.get? i = some .idle ∧ s.urlQueue = e :: rest ∧
      s.visitedUrls.contains e.url = true ∧ s' = { s with urlQueue := rest }) ∨
    (∃ i e rest, s.workers.get? i = some .idle ∧ s.urlQueue = e :: rest ∧
      s.visitedUrls.contains e.url = false ∧ md < e.depth ∧
      s' = { s with urlQueue := rest }) ∨
    (∃ i e rest, s.workers.get? i = some .idle ∧ s.urlQueue = e :: rest ∧
      s.visitedUrls.contains e.url = false ∧ e.depth ≤ md ∧
      s' = { s with urlQueue := rest, visitedUrls := e.url :: s.visitedUrls,
                    workers := s.workers.set i (.fetching e) }) ∨
    (∃ i e, s.workers.get? i = some (.fetching e) ∧
      s' = { s with urlQueue := s.urlQueue ++ admitLinks g s.visitedUrls e,
                    discoveredUrls := addAll s.discoveredUrls (g.links e.url),
                    results := s.results ++ [e],
                    workers := s.workers.set i .sleeping }) ∨
    (∃ i e, s.workers.get? i = some (.fetching e) ∧
      s' = { s with errors := s.errors ++ [e.url],
                    workers := s.workers.set i .sleeping }) ∨
    (∃ i, s.workers.get? i = some .sleeping ∧
      s' = { s with workers := s.workers.set i .idle }) := by
  cases l with
  | take i =>
    simp only [applyLabel] at h
    split at h
    · rename_i hw
      split at h
      · rename_i hq
        injection h with h
        exact Or.inl ⟨i, hw, hq, h.symm⟩
      · rename_i e rest hq
        split at h
        · rename_i hv
          injection h with h
          exact Or.inr (Or.inl ⟨i, e, rest, hw, hq, hv, h.symm⟩)
        · rename_i hv
          split at h
          · rename_i hd
            injection h with h
            exact Or.inr (Or.inr (Or.inl
              ⟨i, e, rest, hw, hq, Bool.eq_false_iff.mpr hv, hd, h.symm⟩))
          · rename_i hd
            injection h with h
            exact Or.inr (Or.inr (Or.inr (Or.inl
              ⟨i, e, rest, hw, hq, Bool.eq_false_iff.mpr hv, Nat.le_of_not_lt hd,
                h.symm⟩)))
    · exact Option.noConfusion h
  | finish i =>
    simp only [applyLabel] at h
    split at h
    · rename_i e hw
      injection h with h
      exact Or.inr (Or.inr (Or.inr (Or.inr (Or.inl ⟨i, e, hw, h.symm⟩))))
    · exact Option.noConfusion h
  | fail i =>
    simp only [applyLabel] at h
    split at h
    · rename_i e hw
      injection h with h
      exact Or.inr (Or.inr (Or.inr (Or.inr (Or.inr (Or.inl ⟨i, e, hw, h.symm⟩)))))
    · exact Option.noConfusion h
  | wake i =>
    simp only [applyLabel] at h
    split at h
    · rename_i hw
      injection h with h
      exact Or.inr (Or.inr (Or.inr (Or.inr (Or.inr (Or.inr ⟨i, hw, h.symm⟩)))))
    · exact Option.noConfusion h

/-! ## Invariants of the transition system -/

theorem contains_false_iff {l : List Nat} {a : Nat} :
    l.contains a = false ↔ a ∉ l := by simp

/-- Well-formedness of one entry: the ghost provenance is consistent
(the seed has no discoverer; any other entry was found among the links
of its discovering page and has that page's origin), and the entry's
recorded depth is the length of an actual link path from the seed. -/
def EOk (g : Graph) (seed : Nat) (e : Entry) : Prop :=
  (e.disc = none → e.url = seed ∧ e.depth = 0) ∧
  (∀ p, e.disc = some p →
    e.url ∈ g.links p ∧ isSameOrigin g e.url (g.origin p) = true) ∧
  Path g seed e.url e.depth

/-- The master invariant of a crawl run: every queue entry, in-flight
fetch and result is well formed; in-flight fetches and results respect
the depth bound; visited and queued URLs are already discovered; the
visited set has no duplicates. -/
def Inv (g : Graph) (md seed : Nat) (s : CState) : Prop :=
  (∀ e ∈ s.urlQueue, EOk g seed e ∧ e.url ∈ s.discoveredUrls) ∧
  (∀ w ∈ s.workers, ∀ e, w = .fetching e →
    EOk g seed e ∧ e.depth ≤ md ∧ e.url ∈ s.discoveredUrls) ∧
  (∀ e ∈ s.results, EOk g seed e ∧ e.depth ≤ md) ∧
  (∀ u ∈ s.visitedUrls, (∃ d, d ≤ md ∧ Path g seed u d) ∧ u ∈ s.discoveredUrls) ∧
  s.visitedUrls.Nodup

theorem inv_init (g : Graph) (md : Nat) (seed n : Nat) :
    Inv g md seed (initState seed n) := by
  refine ⟨?_, ?_, ?_, ?_, ?_⟩
  · intro e he
    simp only [initState, List.mem_singleton] at he
    subst he
    exact ⟨⟨fun _ => ⟨rfl, rfl⟩, fun p hp => by simp at hp, Path.refl⟩,
      by simp [initState]⟩
  · intro w hw e hfe
    simp only [initState, List.mem_replicate] at hw
    rw [hw.2] at hfe
    exact absurd hfe (by simp)
  · intro e he; simp [initState] at he
  · intro u hu; simp [initState] at hu
  · simp [initState]

theorem inv_step {g : Graph} {md seed : Nat} {s s' : CState} {l : Label}
    (hstep : applyLabel g md s l = some s') (hinv : Inv g md seed s) :
    Inv g md seed s' := by
  obtain ⟨hq, hwk, hres, hvis, hnd⟩ := hinv
  rcases applyLabel_cases g md hstep with
    ⟨i, hw, hqe, rfl⟩ | ⟨i, e, rest, hw, hqe, hv, rfl⟩ |
    ⟨i, e, rest, hw, hqe, hv, hd, rfl⟩ | ⟨i, e, rest, hw, hqe, hv, hd, rfl⟩ |
    ⟨i, e, hw, rfl⟩ | ⟨i, e, hw, rfl⟩ | ⟨i, hw, rfl⟩
  · -- take on an empty queue: the worker exits
    refine ⟨hq, ?_, hres, hvis, hnd⟩
    intro w hwmem e hfe
    rcases List.mem_or_eq_of_mem_set hwmem with hwmem | rfl
    · exact hwk w hwmem e hfe
    · exact absurd hfe (by simp)
  · -- dequeue of an already-visited entry: skipped
    refine ⟨?_, hwk, hres, hvis, hnd⟩
    intro f hf
    exact hq f (by rw [hqe]; exact List.mem_cons_of_mem _ hf)
  · -- dequeue of an entry beyond the depth bound: skipped
    refine ⟨?_, hwk, hres, hvis, hnd⟩
    intro f hf
    exact hq f (by rw [hqe]; exact List.mem_cons_of_mem _ hf)
  · -- claim: the url is inserted into visited and the fetch starts
    have hee := hq e (by rw [hqe]; exact List.mem_cons_self _ _)
    refine ⟨?_, ?_, hres, ?_, ?_⟩
    · intro f hf
      exact hq f (by rw [hqe]; exact List.mem_cons_of_mem _ hf)
    · intro w hwmem f hfe
      rcases List.mem_or_eq_of_mem_set hwmem with hwmem | rfl
      · exact hwk w hwmem f hfe
      · injection hfe with hfe
        subst hfe
        exact ⟨hee.1, hd, hee.2⟩
    · intro u hu
      rcases List.mem_cons.mp hu with rfl | hu
      · exact ⟨⟨e.depth, hd, hee.1.2.2⟩, hee.2⟩
      · exact hvis u hu
    · exact List.nodup_cons.mpr ⟨contains_false_iff.mp hv, hnd⟩
  · -- successful fetch completion: admit the found links
    have hfe := hwk _ (List.get?_mem hw) e rfl
    refine ⟨?_, ?_, ?_, ?_, hnd⟩
    · intro f hf
      rcases List.mem_append.mp hf with hf | hf
      · have := hq f hf
        exact ⟨this.1, mem_addAll_left _ this.2⟩
      · simp only [admitLinks, List.mem_map, List.mem_filter] at hf
        obtain ⟨v, ⟨hvl, hcond⟩, rfl⟩ := hf
        have hso : isSameOrigin g v (g.origin e.url) = true :=
          (Bool.and_eq_true_iff.mp hcond).2
        refine ⟨⟨fun hh => by simp at hh, ?_, hfe.1.2.2.step hvl⟩,
          mem_addAll_right _ hvl⟩
        intro p hp
        injection hp with hp
        subst hp
        exact ⟨hvl, hso⟩
    · intro w hwmem f hfw
      rcases List.mem_or_eq_of_mem_set hwmem with hwmem | rfl
      · have := hwk w hwmem f hfw
        exact ⟨this.1, this.2.1, mem_addAll_left _ this.2.2⟩
      · exact absurd hfw (by simp)
    · intro f hf
      rcases List.mem_append.mp hf with hf | hf
      · exact hres f hf
      · rw [List.mem_singleton.mp hf]
        exact ⟨hfe.1, hfe.2.1⟩
    · intro u hu
      have := hvis u hu
      exact ⟨this.1, mem_addAll_left _ this.2⟩
  · -- terminal fetch failure: error emitted, nothing else changes
    refine ⟨hq, ?_, hres, hvis, hnd⟩
    intro w hwmem f hfw
    rcases List.mem_or_eq_of_mem_set hwmem with hwmem | rfl
    · exact hwk w hwmem f hfw
    · exact absurd hfw (by simp)
  · -- politeness sleep over
    refine ⟨hq, ?_, hres, hvis, hnd⟩
    intro w hwmem f hfw
    rcases List.mem_or_eq_of_mem_set hwmem with hwmem | rfl
    · exact hwk w hwmem f hfw
    · exact absurd hfw (by simp)

theorem inv_run {g : Graph} {md seed : Nat} :
    ∀ {tr : List Label} {s s' : CState}, run g md s tr = some s' →
      Inv g md seed s → Inv g md seed s' := by
  intro tr
  induction tr with
  | nil =>
    intro s s' h hinv
    simp only [run] at h
    injection h with h
    rwa [← h]
  | cons l tr ih =>
    intro s s' h hinv
    simp only [run] at h
    rcases hstep : applyLabel g md s l with _ | s''
    · rw [hstep] at h; exact absurd h (by simp)
    · rw [hstep] at h
      exact ih h (inv_step hstep hinv)

/-! ## Monotonicity, termination and progress lemmas -/

theorem visited_mono_step {g : Graph} {md : Nat} {s s' : CState} {l : Label}
    (hstep : applyLabel g md s l = some s') :
    ∀ u ∈ s.visitedUrls, u ∈ s'.visitedUrls := by
  rcases applyLabel_cases g md hstep with
    ⟨i, hw, hqe, rfl⟩ | ⟨i, e, rest, hw, hqe, hv, rfl⟩ |
    ⟨i, e, rest, hw, hqe, hv, hd, rfl⟩ | ⟨i, e, rest, hw, hqe, hv, hd, rfl⟩ |
    ⟨i, e, hw, rfl⟩ | ⟨i, e, hw, rfl⟩ | ⟨i, hw, rfl⟩ <;>
    intro u hu
  case _ => exact hu
  case _ => exact hu
  case _ => exact hu
  case _ => exact List.mem_cons_of_mem _ hu
  case _ => exact hu
  case _ => exact hu
  case _ => exact hu

theorem discovered_mono_step {g : Graph} {md : Nat} {s s' : CState} {l : Label}
    (hstep : applyLabel g md s l = some s') :
    ∀ u ∈ s.discoveredUrls, u ∈ s'.discoveredUrls := by
  rcases applyLabel_cases g md hstep with
    ⟨i, hw, hqe, rfl⟩ | ⟨i, e, rest, hw, hqe, hv, rfl⟩ |
    ⟨i, e, rest, hw, hqe, hv, hd, rfl⟩ | ⟨i, e, rest, hw, hqe, hv, hd, rfl⟩ |
    ⟨i, e, hw, rfl⟩ | ⟨i, e, hw, rfl⟩ | ⟨i, hw, rfl⟩ <;>
    intro u hu
  case _ => exact hu
  case _ => exact hu
  case _ => exact hu
  case _ => exact hu
  case _ => exact mem_addAll_left _ hu
  case _ => exact hu
  case _ => exact hu

theorem run_visited_mono {g : Graph} {md : Nat} :
    ∀ {tr : List Label} {s s' : CState}, run g md s tr = some s' →
      ∀ u ∈ s.visitedUrls, u ∈ s'.visitedUrls := by
  intro tr
  induction tr with
  | nil =>
    intro s s' h
    simp only [run] at h
    injection h with h
    rw [← h]; exact fun u hu => hu
  | cons l tr ih =>
    intro s s' h
    simp only [run] at h
    rcases hstep : applyLabel g md s l with _ | s''
    · rw [hstep] at h; exact absurd h (by simp)
    · rw [hstep] at h
      exact fun u hu => ih h u (visited_mono_step hstep u hu)

theorem run_discovered_mono {g : Graph} {md : Nat} :
    ∀ {tr : List Label} {s s' : CState}, run g md s tr = some s' →
      ∀ u ∈ s.discoveredUrls, u ∈ s'.discoveredUrls := by
  intro tr
  induction tr with
  | nil =>
    intro s s' h
    simp only [run] at h
    injection h with h
    rw [← h]; exact fun u hu => hu
  | cons l tr ih =>
    intro s s' h
    simp only [run] at h
    rcases hstep : applyLabel g md s l with _ | s''
    · rw [hstep] at h; exact absurd h (by simp)
    · rw [hstep] at h
      exact fun u hu => ih h u (discovered_mono_step hstep u hu)

theorem not_terminal_of_get? {s : CState} {i : Nat} {w : WStatus}
    (hw : s.workers.get? i = some w) (hne : w ≠ .done) : terminal s = false := by
  cases ht : terminal s
  · rfl
  · exfalso
    simp only [terminal] at ht
    rw [List.all_eq_true] at ht
    have := ht _ (List.get?_mem hw)
    exact hne (by simpa using this)

/-- A state in which some label is enabled is not yet terminal: no step
runs once every worker has exited. -/
theorem step_not_terminal {g : Graph} {md : Nat} {s s' : CState} {l : Label}
    (hstep : applyLabel g md s l = some s') : terminal s = false := by
  rcases applyLabel_cases g md hstep with
    ⟨i, hw, _, _⟩ | ⟨i, e, rest, hw, _, _, _⟩ |
    ⟨i, e, rest, hw, _, _, _, _⟩ | ⟨i, e, rest, hw, _, _, _, _⟩ |
    ⟨i, e, hw, _⟩ | ⟨i, e, hw, _⟩ | ⟨i, hw, _⟩ <;>
    exact not_terminal_of_get? hw (by simp)

/-- A terminal state is stuck: a schedule can only be empty from it. -/
theorem terminal_stuck {g : Graph} {md : Nat} {s s' : CState} {tr : List Label}
    (ht : terminal s = true) (h : run g md s tr = some s') :
    tr = [] ∧ s' = s := by
  cases tr with
  | nil =>
    simp only [run] at h
    injection h with h
    exact ⟨rfl, h.symm⟩
  | cons l tr =>
    simp only [run] at h
    rcases hstep : applyLabel g md s l with _ | s''
    · rw [hstep] at h; exact absurd h (by simp)
    · rw [step_not_terminal hstep] at ht
      exact absurd ht (by simp)

theorem get?_lt_length {α : Type} {l : List α} {i : Nat} {a : α}
    (h : l.get? i = some a) : i < l.length :=
  List.get?_eq_some.mp h |>.1

theorem get?_set_self {l : List WStatus} {i : Nat} {a b : WStatus}
    (h : l.get? i = some a) : (l.set i b).get? i = some b :=
  List.get?_set_eq_of_lt _ (get?_lt_length h)

/-- Any run from a non-terminal state that reaches a terminal state
leaves the queue empty: the only step that can complete the last worker
is a dequeue attempt that observed an empty queue. -/
theorem run_terminal_queue {g : Graph} {md : Nat} :
    ∀ {tr : List Label} {s s' : CState}, terminal s = false →
      run g md s tr = some s' → terminal s' = true → s'.urlQueue = [] := by
  intro tr
  induction tr with
  | nil =>
    intro s s' hnt h ht
    simp only [run] at h
    injection h with h
    rw [← h] at ht
    rw [hnt] at ht
    exact absurd ht (by simp)
  | cons l tr ih =>
    intro s s' hnt h ht
    simp only [run] at h
    rcases hstep : applyLabel g md s l with _ | s''
    · rw [hstep] at h; exact absurd h (by simp)
    rw [hstep] at h
    cases ht'' : terminal s''
    · exact ih ht'' h ht
    · obtain ⟨-, rfl⟩ := terminal_stuck ht'' h
      rcases applyLabel_cases g md hstep with
        ⟨i, hw, hqe, rfl⟩ | ⟨i, e, rest, hw, hqe, hv, rfl⟩ |
        ⟨i, e, rest, hw, hqe, hv, hd, rfl⟩ | ⟨i, e, rest, hw, hqe, hv, hd, rfl⟩ |
        ⟨i, e, hw, rfl⟩ | ⟨i, e, hw, rfl⟩ | ⟨i, hw, rfl⟩
      · exact hqe
      · have hf : terminal { s with urlQueue := rest } = false :=
          not_terminal_of_get? hw (by simp)
        rw [hf] at ht''
        exact absurd ht'' (by simp)
      · have hf : terminal { s with urlQueue := rest } = false :=
          not_terminal_of_get? hw (by simp)
        rw [hf] at ht''
        exact absurd ht'' (by simp)
      · have hf : terminal { s with
            urlQueue := rest,
            visitedUrls := e.url :: s.visitedUrls,
            workers := s.workers.set i (.fetching e) } = false :=
          not_terminal_of_get? (get?_set_self hw) (by simp)
        rw [hf] at ht''
        exact absurd ht'' (by simp)
      · have hf : terminal { s with
            urlQueue := s.urlQueue ++ admitLinks g s.visitedUrls e,
            discoveredUrls := addAll s.discoveredUrls (g.links e.url),
            results := s.results ++ [e],
            workers := s.workers.set i .sleeping } = false :=
          not_terminal_of_get? (get?_set_self hw) (by simp)
        rw [hf] at ht''
        exact absurd ht'' (by simp)
      · have hf : terminal { s with
            errors := s.errors ++ [e.url],
            workers := s.workers.set i .sleeping } = false :=
          not_terminal_of_get? (get?_set_self hw) (by simp)
        rw [hf] at ht''
        exact absurd ht'' (by simp)
      · have hf : terminal { s with workers := s.workers.set i .idle } = false :=
          not_terminal_of_get? (get?_set_self hw) (by simp)
        rw [hf] at ht''
        exact absurd ht'' (by simp)

/-- Progress: as long as some worker has not exited, some label is
enabled — the system never deadlocks before the terminal state. -/
theorem progress {g : Graph} {md : Nat} {s : CState}
    (h : terminal s = false) : ∃ l s', applyLabel g md s l = some s' := by
  simp only [terminal] at h
  obtain ⟨w, hwmem, hwne⟩ := List.all_eq_false.mp h
  obtain ⟨i, hi⟩ := List.mem_iff_get?.mp hwmem
  cases w with
  | idle =>
    refine ⟨.take i, ?_⟩
    cases hq : s.urlQueue with
    | nil =>
      refine ⟨{ s with workers := s.workers.set i .done }, ?_⟩
      simp only [applyLabel]
      rw [hi, hq]
    | cons e rest =>
      by_cases hv : s.visitedUrls.contains e.url
      · refine ⟨{ s with urlQueue := rest }, ?_⟩
        simp only [applyLabel]
        rw [hi, hq]
        show (if s.visitedUrls.contains e.url = true then _ else _) = _
        rw [if_pos hv]
      · by_cases hd : md < e.depth
        · refine ⟨{ s with urlQueue := rest }, ?_⟩
          simp only [applyLabel]
          rw [hi, hq]
          show (if s.visitedUrls.contains e.url = true then _ else _) = _
          rw [if_neg hv, if_pos hd]
        · refine ⟨{ s with
              urlQueue := rest,
              visitedUrls := e.url :: s.visitedUrls,
              workers := s.workers.set i (.fetching e) }, ?_⟩
          simp only [applyLabel]
          rw [hi, hq]
          show (if s.visitedUrls.contains e.url = true then _ else _) = _
          rw [if_neg hv, if_neg hd]
  | fetching e =>
    refine ⟨.finish i, { s with
      urlQueue := s.urlQueue ++ admitLinks g s.visitedUrls e,
      discoveredUrls := addAll s.discoveredUrls (g.links e.url),
      results := s.results ++ [e],
      workers := s.workers.set i .sleeping }, ?_⟩
    simp only [applyLabel]
    rw [hi]
  | sleeping =>
    refine ⟨.wake i, { s with workers := s.workers.set i .idle }, ?_⟩
    simp only [applyLabel]
    rw [hi]
  | done => simp at hwne

/-! ## Termination: a strictly decreasing measure

`allUrls` is a finite universe containing the seed and closed under the
link relation; `L` bounds the number of links on any page.  Every step
of the system strictly decreases `runMeasure`, so every schedule is
finite. -/

def rank (L : Nat) : WStatus → Nat
  | .idle => 1
  | .fetching _ => 3 + L
  | .sleeping => 2
  | .done => 0

def runMeasure (allUrls : Finset Nat) (L : Nat) (s : CState) : Nat :=
  (2 + L) * ((allUrls.filter (fun u => u ∉ s.visitedUrls)).card)
    + s.urlQueue.length + (s.workers.map (rank L)).sum

/-- All URLs in play (queued or being fetched) belong to the universe. -/
def UrlsWF (allUrls : Finset Nat) (s : CState) : Prop :=
  (∀ e ∈ s.urlQueue, e.url ∈ allUrls) ∧
  (∀ w ∈ s.workers, ∀ e, w = .fetching e → e.url ∈ allUrls)

theorem admitLinks_length_le (g : Graph) (visited : List Nat) (e : Entry) :
    (admitLinks g visited e).length ≤ (g.links e.url).length := by
  simp only [admitLinks, List.length_map]
  exact List.length_filter_le _ _

theorem admitLinks_url_mem {g : Graph} {visited : List Nat} {e f : Entry}
    (hf : f ∈ admitLinks g visited e) : f.url ∈ g.links e.url := by
  simp only [admitLinks, List.mem_map, List.mem_filter] at hf
  obtain ⟨v, ⟨hvl, -⟩, rfl⟩ := hf
  exact hvl

theorem urlsWF_step {g : Graph} {md : Nat} {allUrls : Finset Nat}
    {s s' : CState} {l : Label}
    (hclosed : ∀ u ∈ allUrls, ∀ v ∈ g.links u, v ∈ allUrls)
    (hstep : applyLabel g md s l = some s') (hwf : UrlsWF allUrls s) :
    UrlsWF allUrls s' := by
  obtain ⟨hwfq, hwfw⟩ := hwf
  rcases applyLabel_cases g md hstep with
    ⟨i, hw, hqe, rfl⟩ | ⟨i, e, rest, hw, hqe, hv, rfl⟩ |
    ⟨i, e, rest, hw, hqe, hv, hd, rfl⟩ | ⟨i, e, rest, hw, hqe, hv, hd, rfl⟩ |
    ⟨i, e, hw, rfl⟩ | ⟨i, e, hw, rfl⟩ | ⟨i, hw, rfl⟩
  · refine ⟨hwfq, ?_⟩
    intro w hwmem f hfw
    rcases List.mem_or_eq_of_mem_set hwmem with hwmem | rfl
    · exact hwfw w hwmem f hfw
    · exact absurd hfw (by simp)
  · exact ⟨fun f hf => hwfq f (by rw [hqe]; exact List.mem_cons_of_mem _ hf), hwfw⟩
  · exact ⟨fun f hf => hwfq f (by rw [hqe]; exact List.mem_cons_of_mem _ hf), hwfw⟩
  · refine ⟨fun f hf => hwfq f (by rw [hqe]; exact List.mem_cons_of_mem _ hf), ?_⟩
    intro w hwmem f hfw
    rcases List.mem_or_eq_of_mem_set hwmem with hwmem | rfl
    · exact hwfw w hwmem f hfw
    · injection hfw with hfw
      subst hfw
      exact hwfq _ (by rw [hqe]; exact List.mem_cons_self _ _)
  · have hmem : e.url ∈ allUrls := hwfw _ (List.get?_mem hw) e rfl
    refine ⟨?_, ?_⟩
    · intro f hf
      rcases List.mem_append.mp hf with hf | hf
      · exact hwfq f hf
      · exact hclosed _ hmem _ (admitLinks_url_mem hf)
    · intro w hwmem f hfw
      rcases List.mem_or_eq_of_mem_set hwmem with hwmem | rfl
      · exact hwfw w hwmem f hfw
      · exact absurd hfw (by simp)
  · refine ⟨hwfq, ?_⟩
    intro w hwmem f hfw
    rcases List.mem_or_eq_of_mem_set hwmem with hwmem | rfl
    · exact hwfw w hwmem f hfw
    · exact absurd hfw (by simp)
  · refine ⟨hwfq, ?_⟩
    intro w hwmem f hfw
    rcases List.mem_or_eq_of_mem_set hwmem with hwmem | rfl
    · exact hwfw w hwmem f hfw
    · exact absurd hfw (by simp)

theorem measure_step_lt {g : Graph} {md : Nat} {allUrls : Finset Nat} {L : Nat}
    {s s' : CState} {l : Label}
    (hlen : ∀ u ∈ allUrls, (g.links u).length ≤ L)
    (hstep : applyLabel g md s l = some s') (hwf : UrlsWF allUrls s) :
    runMeasure allUrls L s' < runMeasure allUrls L s := by
  obtain ⟨hwfq, hwfw⟩ := hwf
  rcases applyLabel_cases g md hstep with
    ⟨i, hw, hqe, rfl⟩ | ⟨i, e, rest, hw, hqe, hv, rfl⟩ |
    ⟨i, e, rest, hw, hqe, hv, hd, rfl⟩ | ⟨i, e, rest, hw, hqe, hv, hd, rfl⟩ |
    ⟨i, e, hw, rfl⟩ | ⟨i, e, hw, rfl⟩ | ⟨i, hw, rfl⟩
  · -- worker exits
    have hsum := sum_map_set (rank L) s.workers i .idle .done hw
    simp only [rank] at hsum
    simp only [runMeasure]
    generalize (2 + L) * ((allUrls.filter (fun u => u ∉ s.visitedUrls)).card) = A
    omega
  · -- visited skip
    have hne := congrArg List.length hqe
    simp only [List.length_cons] at hne
    simp only [runMeasure]
    generalize (2 + L) * ((allUrls.filter (fun u => u ∉ s.visitedUrls)).card) = A
    omega
  · -- depth skip
    have hne := congrArg List.length hqe
    simp only [List.length_cons] at hne
    simp only [runMeasure]
    generalize (2 + L) * ((allUrls.filter (fun u => u ∉ s.visitedUrls)).card) = A
    omega
  · -- claim
    have hmemall : e.url ∈ allUrls :=
      hwfq e (by rw [hqe]; exact List.mem_cons_self _ _)
    have hnotvis : e.url ∉ s.visitedUrls := contains_false_iff.mp hv
    have hcard : (allUrls.filter (fun u => u ∉ e.url :: s.visitedUrls)).card <
        (allUrls.filter (fun u => u ∉ s.visitedUrls)).card := by
      apply Finset.card_lt_card
      have hsub : (allUrls.filter (fun u => u ∉ e.url :: s.visitedUrls)) ⊆
          (allUrls.filter (fun u => u ∉ s.visitedUrls)) := by
        intro x hx
        rw [Finset.mem_filter] at hx ⊢
        exact ⟨hx.1, fun hmem => hx.2 (List.mem_cons_of_mem _ hmem)⟩
      rw [Finset.ssubset_iff_of_subset hsub]
      exact ⟨e.url, Finset.mem_filter.mpr ⟨hmemall, hnotvis⟩, by simp⟩
    have hmul : (2 + L) * ((allUrls.filter (fun u => u ∉ e.url :: s.visitedUrls)).card)
        + (2 + L) ≤
        (2 + L) * ((allUrls.filter (fun u => u ∉ s.visitedUrls)).card) := by
      rw [← Nat.mul_succ]
      exact Nat.mul_le_mul_left _ hcard
    have hsum := sum_map_set (rank L) s.workers i .idle (.fetching e) hw
    simp only [rank] at hsum
    have hne := congrArg List.length hqe
    simp only [List.length_cons] at hne
    simp only [runMeasure]
    generalize hA : (2 + L) *
      ((allUrls.filter (fun u => u ∉ e.url :: s.visitedUrls)).card) = A at hmul ⊢
    generalize hB : (2 + L) *
      ((allUrls.filter (fun u => u ∉ s.visitedUrls)).card) = B at hmul ⊢
    omega
  · -- successful fetch completion
    have hmemall : e.url ∈ allUrls := hwfw _ (List.get?_mem hw) e rfl
    have hadm : (admitLinks g s.visitedUrls e).length ≤ L :=
      le_trans (admitLinks_length_le g s.visitedUrls e) (hlen _ hmemall)
    have hsum := sum_map_set (rank L) s.workers i (.fetching e) .sleeping hw
    simp only [rank] at hsum
    simp only [runMeasure, List.length_append]
    generalize (2 + L) * ((allUrls.filter (fun u => u ∉ s.visitedUrls)).card) = A
    omega
  · -- fetch failure
    have hsum := sum_map_set (rank L) s.workers i (.fetching e) .sleeping hw
    simp only [rank] at hsum
    simp only [runMeasure]
    generalize (2 + L) * ((allUrls.filter (fun u => u ∉ s.visitedUrls)).card) = A
    omega
  · -- wake up
    have hsum := sum_map_set (rank L) s.workers i .sleeping .idle hw
    simp only [rank] at hsum
    simp only [runMeasure]
    generalize (2 + L) * ((allUrls.filter (fun u => u ∉ s.visitedUrls)).card) = A
    omega

/-- Every schedule is finite: its length is bounded by the measure of
the state it starts from. -/
theorem run_length_le {g : Graph} {md : Nat} {allUrls : Finset Nat} {L : Nat}
    (hclosed : ∀ u ∈ allUrls, ∀ v ∈ g.links u, v ∈ allUrls)
    (hlen : ∀ u ∈ allUrls, (g.links u).length ≤ L) :
    ∀ {tr : List Label} {s s' : CState}, UrlsWF allUrls s →
      run g md s tr = some s' → tr.length ≤ runMeasure allUrls L s := by
  intro tr
  induction tr with
  | nil => intro s s' _ _; exact Nat.zero_le _
  | cons l tr ih =>
    intro s s' hwf h
    simp only [run] at h
    rcases hstep : applyLabel g md s l with _ | s''
    · rw [hstep] at h; exact absurd h (by simp)
    rw [hstep] at h
    have h1 := ih (urlsWF_step hclosed hstep hwf) h
    have h2 := measure_step_lt hlen hstep hwf
    simp only [List.length_cons]
    omega

/-! ## Every admitted entry within the depth bound gets visited -/

theorem newAdmissions_subset_queue {g : Graph} {md : Nat} {s s' : CState}
    {l : Label} (hstep : applyLabel g md s l = some s') :
    ∀ e ∈ newAdmissions g s l, e ∈ s'.urlQueue := by
  cases l with
  | take i => intro e he; simp [newAdmissions] at he
  | finish i =>
    intro e he
    simp only [newAdmissions] at he
    split at he
    · rename_i e0 heq
      simp only [applyLabel] at hstep
      split at hstep
      · rename_i e1 heq1
        rw [heq] at heq1
        injection heq1 with heq1
        injection heq1 with heq1
        subst heq1
        injection hstep with hstep
        rw [← hstep]
        exact List.mem_append_right _ he
      · exact Option.noConfusion hstep
    · simp at he
  | fail i => intro e he; simp [newAdmissions] at he
  | wake i => intro e he; simp [newAdmissions] at he

/-- If a run drains the queue, then every entry that was queued or got
admitted along the way and respects the depth bound ends up with its URL
in the visited set (it cannot be silently lost). -/
theorem enq_visited {g : Graph} {md : Nat} :
    ∀ {tr : List Label} {s s' : CState}, run g md s tr = some s' →
      s'.urlQueue = [] → ∀ e : Entry, e.depth ≤ md →
      (e ∈ s.urlQueue ∨ e ∈ admittedDuring g md s tr ∨ e.url ∈ s.visitedUrls) →
      e.url ∈ s'.visitedUrls := by
  intro tr
  induction tr with
  | nil =>
    intro s s' h hq e hd hmem
    simp only [run] at h
    injection h with h
    subst h
    rcases hmem with hmem | hmem | hmem
    · rw [hq] at hmem; simp at hmem
    · simp [admittedDuring] at hmem
    · exact hmem
  | cons l tr ih =>
    intro s s' h hq e hd hmem
    simp only [run] at h
    rcases hstep : applyLabel g md s l with _ | s''
    · rw [hstep] at h; exact absurd h (by simp)
    rw [hstep] at h
    have hadm : admittedDuring g md s (l :: tr) =
        newAdmissions g s l ++ admittedDuring g md s'' tr := by
      simp only [admittedDuring, hstep]
    apply ih h hq e hd
    rcases hmem with hmem | hmem | hmem
    · rcases applyLabel_cases g md hstep with
        ⟨i, hw, hqe, rfl⟩ | ⟨i, f, rest, hw, hqe, hv, rfl⟩ |
        ⟨i, f, rest, hw, hqe, hv, hd', rfl⟩ | ⟨i, f, rest, hw, hqe, hv, hd', rfl⟩ |
        ⟨i, f, hw, rfl⟩ | ⟨i, f, hw, rfl⟩ | ⟨i, hw, rfl⟩
      · exact Or.inl hmem
      · rw [hqe] at hmem
        rcases List.mem_cons.mp hmem with rfl | hmem
        · exact Or.inr (Or.inr (List.elem_iff.mp hv))
        · exact Or.inl hmem
      · rw [hqe] at hmem
        rcases List.mem_cons.mp hmem with rfl | hmem
        · exact absurd hd (by omega)
        · exact Or.inl hmem
      · rw [hqe] at hmem
        rcases List.mem_cons.mp hmem with rfl | hmem
        · exact Or.inr (Or.inr (List.mem_cons_self _ _))
        · exact Or.inl hmem
      · exact Or.inl (List.mem_append_left _ hmem)
      · exact Or.inl hmem
      · exact Or.inl hmem
    · rw [hadm] at hmem
      rcases List.mem_append.mp hmem with hmem | hmem
      · exact Or.inl (newAdmissions_subset_queue hstep e hmem)
      · exact Or.inr (Or.inl hmem)
    · exact Or.inr (Or.inr (visited_mono_step hstep _ hmem))

/-! ## Lemmas about the retry loop -/

/-- The exponential backoff schedule starting at attempt number
`attempt`: `rd * 2 ^ attempt, rd * 2 ^ (attempt+1), ...`, `k` sleeps. -/
def backoffs (rd attempt : Nat) : Nat → List Nat
  | 0 => []
  | k + 1 => rd * 2 ^ attempt :: backoffs rd (attempt + 1) k

theorem backoffs_eq (rd : Nat) : ∀ (k attempt : Nat),
    backoffs rd attempt k = (List.range k).map (fun i => rd * 2 ^ (attempt + i)) := by
  intro k
  induction k with
  | zero => intro attempt; rfl
  | succ k ih =>
    intro attempt
    rw [List.range_succ_eq_map, List.map_cons, List.map_map]
    show rd * 2 ^ attempt :: backoffs rd (attempt + 1) k = _
    rw [ih (attempt + 1)]
    congr 1
    apply List.map_congr_left
    intro i _
    simp only [Function.comp_apply, Nat.succ_eq_add_one]
    rw [show attempt + 1 + i = attempt + (i + 1) by omega]

theorem attemptLoop_success (outcome : Nat → Bool) (rd : Nat) :
    ∀ (rem attempt k : Nat), k ≤ rem →
      (∀ i, i < k → outcome (attempt + i) = false) →
      outcome (attempt + k) = true →
      attemptLoop outcome rd attempt rem = (backoffs rd attempt k, k + 1, true) := by
  intro rem
  induction rem with
  | zero =>
    intro attempt k hk hfail hsucc
    have hk0 : k = 0 := Nat.le_zero.mp hk
    subst hk0
    have hs : outcome attempt = true := by simpa using hsucc
    simp [attemptLoop, hs, backoffs]
  | succ rem ih =>
    intro attempt k hk hfail hsucc
    cases k with
    | zero =>
      have hs : outcome attempt = true := by simpa using hsucc
      simp [attemptLoop, hs, backoffs]
    | succ k =>
      have h0 : outcome attempt = false := by simpa using hfail 0 (Nat.succ_pos k)
      have hrec := ih (attempt + 1) k (Nat.le_of_succ_le_succ hk)
        (fun i hi => by
          have := hfail (i + 1) (Nat.succ_lt_succ hi)
          rwa [show attempt + (i + 1) = attempt + 1 + i by omega] at this)
        (by rwa [show attempt + (k + 1) = attempt + 1 + k by omega] at hsucc)
      simp [attemptLoop, h0, hrec, backoffs]

theorem attemptLoop_failure (outcome : Nat → Bool) (rd : Nat) :
    ∀ (rem attempt : Nat), (∀ i, i ≤ rem → outcome (attempt + i) = false) →
      attemptLoop outcome rd attempt rem = (backoffs rd attempt rem, rem + 1, false) := by
  intro rem
  induction rem with
  | zero =>
    intro attempt hfail
    have h0 : outcome attempt = false := by simpa using hfail 0 (Nat.le_refl 0)
    simp [attemptLoop, h0, backoffs]
  | succ rem ih =>
    intro attempt hfail
    have h0 : outcome attempt = false := by simpa using hfail 0 (Nat.zero_le _)
    have hrec := ih (attempt + 1) (fun i hi => by
      have := hfail (i + 1) (Nat.succ_le_succ hi)
      rwa [show attempt + (i + 1) = attempt + 1 + i by omega] at this)
    simp [attemptLoop, h0, hrec, backoffs]

/-! ## Lemmas about the slow-host state -/

theorem lookupDelay_map_upd : ∀ (m : List (Nat × Nat)) (h d : Nat),
    (m.find? (fun p => p.1 == h)).isSome = true →
    lookupDelay (m.map (fun p => if p.1 == h then (h, d) else p)) h = some d := by
  intro m
  induction m with
  | nil => intro h d hf; simp [List.find?] at hf
  | cons p m ih =>
    intro h d hf
    by_cases hp : p.1 == h
    · simp only [List.map_cons, if_pos hp, lookupDelay]
      rw [List.find?_cons_of_pos _ (by simp)]
    · simp only [List.map_cons, if_neg hp, lookupDelay]
      rw [List.find?_cons_of_neg _ (by simpa using hp)]
      have hf' : (m.find? (fun p => p.1 == h)).isSome = true := by
        rw [List.find?_cons_of_neg _ (by simpa using hp)] at hf
        exact hf
      have := ih h d hf'
      simpa [lookupDelay] using this

theorem lookupDelay_setDelay (m : List (Nat × Nat)) (h d : Nat) :
    lookupDelay (setDelay m h d) h = some d := by
  simp only [setDelay]
  split
  · rename_i hf
    exact lookupDelay_map_upd m h d hf
  · simp only [lookupDelay]
    rw [List.find?_cons_of_pos _ (by simp)]

theorem updateSlow_marks {st : HostState} {thr h rt : Nat} (hlt : thr < rt) :
    (updateSlow st thr h rt).slowHosts.contains h = true ∧
      lookupDelay (updateSlow st thr h rt).hostDelays h = some (min rt 10000) := by
  simp only [updateSlow, if_pos hlt]
  refine ⟨?_, lookupDelay_setDelay _ _ _⟩
  dsimp only
  by_cases hc : st.slowHosts.contains h
  · rw [if_pos hc]; exact hc
  · rw [if_neg hc]
    exact List.elem_iff.mpr (List.mem_cons_self _ _)

theorem updateSlow_mono {st : HostState} {thr h' rt : Nat} (h : Nat)
    (hmem : st.slowHosts.contains h = true) :
    (updateSlow st thr h' rt).slowHosts.contains h = true := by
  simp only [updateSlow]
  split
  · dsimp only
    by_cases hc : st.slowHosts.contains h'
    · rw [if_pos hc]; exact hmem
    · rw [if_neg hc]
      exact List.elem_iff.mpr (List.mem_cons_of_mem _ (List.elem_iff.mp hmem))
  · exact hmem

theorem preSleep_of_marked {st : HostState} {thr h d : Nat}
    (hmem : st.slowHosts.contains h = true)
    (hd : lookupDelay st.hostDelays h = some d) (hdpos : d ≠ 0) :
    preSleep st thr h = some d := by
  simp only [preSleep, if_pos hmem, hd]
  simp [hdpos]

/-! ## The discovered set covers every admission -/

theorem newAdmissions_discovered {g : Graph} {md : Nat} {s s' : CState}
    {l : Label} (hstep : applyLabel g md s l = some s') :
    ∀ e ∈ newAdmissions g s l, e.url ∈ s'.discoveredUrls := by
  cases l with
  | take i => intro e he; simp [newAdmissions] at he
  | finish i =>
    intro e he
    simp only [newAdmissions] at he
    split at he
    · rename_i e0 heq
      simp only [applyLabel] at hstep
      split at hstep
      · rename_i e1 heq1
        rw [heq] at heq1
        injection heq1 with heq1
        injection heq1 with heq1
        subst heq1
        injection hstep with hstep
        rw [← hstep]
        exact mem_addAll_right _ (admitLinks_url_mem he)
      · exact Option.noConfusion hstep
    · simp at he
  | fail i => intro e he; simp [newAdmissions] at he
  | wake i => intro e he; simp [newAdmissions] at he

theorem admittedDuring_discovered {g : Graph} {md : Nat} :
    ∀ {tr : List Label} {s s' : CState}, run g md s tr = some s' →
      ∀ e ∈ admittedDuring g md s tr, e.url ∈ s'.discoveredUrls := by
  intro tr
  induction tr with
  | nil => intro s s' h e he; simp [admittedDuring] at he
  | cons l tr ih =>
    intro s s' h e he
    simp only [run] at h
    rcases hstep : applyLabel g md s l with _ | s''
    · rw [hstep] at h; exact absurd h (by simp)
    rw [hstep] at h
    have hadm : admittedDuring g md s (l :: tr) =
        newAdmissions g s l ++ admittedDuring g md s'' tr := by
      simp only [admittedDuring, hstep]
    rw [hadm] at he
    rcases List.mem_append.mp he with he | he
    · exact run_discovered_mono h _ (newAdmissions_discovered hstep e he)
    · exact ih h e he

/-- The discovered set is write-only for the transition system: no
transition reads it, so the frontier, the visited set and the results
produced by a step do not depend on its contents. -/
theorem applyLabel_discovered_indep (g : Graph) (md : Nat) (s : CState)
    (l : Label) (d' : List Nat) :
    (applyLabel g md { s with discoveredUrls := d' } l).map
        (fun t => (t.urlQueue, t.visitedUrls, t.results)) =
      (applyLabel g md s l).map (fun t => (t.urlQueue, t.visitedUrls, t.results)) := by
  cases l with
  | take i =>
    simp only [applyLabel]
    cases hw : s.workers.get? i with
    | none => rfl
    | some w =>
      cases w with
      | idle =>
        cases hq : s.urlQueue with
        | nil => rfl
        | cons e rest =>
          dsimp only
          by_cases hv : s.visitedUrls.contains e.url = true
          · rw [if_pos hv, if_pos hv]; rfl
          · rw [if_neg hv, if_neg hv]
            by_cases hd : md < e.depth
            · rw [if_pos hd, if_pos hd]; rfl
            · rw [if_neg hd, if_neg hd]; rfl
      | fetching e => rfl
      | sleeping => rfl
      | done => rfl
  | finish i =>
    simp only [applyLabel]
    cases hw : s.workers.get? i with
    | none => rfl
    | some w => cases w <;> rfl
  | fail i =>
    simp only [applyLabel]
    cases hw : s.workers.get? i with
    | none => rfl
    | some w => cases w <;> rfl
  | wake i =>
    simp only [applyLabel]
    cases hw : s.workers.get? i with
    | none => rfl
    | some w => cases w <;> rfl

/-! ## The faithful sequential semantics of a crawl run

An async function body runs synchronously until its first `await`.  In
`crawl` (lines 98-101) worker 0 is started first: it shifts the single
seed entry, claims it, and suspends inside `axios.get`.  Every other
worker then starts, observes `this.urlQueue.length === 0` at line 116,
and returns immediately.  From then on only worker 0 ever runs, so the
real crawl is one sequential FIFO loop, whatever `maxConcurrency` says
and however the network delays individual fetches: timing can stretch a
fetch but cannot reorder the single worker's queue operations.

`workerLoop` is that loop (lines 115-160) with all fetches succeeding
(the termination-completeness property quantifies over link graphs, so
the network is the graph itself): shift the head entry, skip it if the
URL is visited (line 123) or its depth exceeds maxDepth (line 124),
otherwise claim it, record the result, and append the found links that
are unvisited and same-origin with the fetched page at depth+1 (lines
134-143).  The visited set additionally records, as ghost data, the
depth at which each URL was claimed; only the URL component is ever
read (the `contains` test and the admission filter), exactly like the
code's `Set`. -/

/-- The URLs of the visited list (the code's actual `visitedUrls` set);
the second components are ghost claim depths. -/
def vurls (vs : List (Nat × Nat)) : List Nat := vs.map Prod.fst

/-- State of the sequential crawl: the frontier, the visited set with
ghost claim depths, and the results. -/
structure BState where
  urlQueue : List Entry
  visited : List (Nat × Nat)
  results : List Entry
deriving DecidableEq

/-- The single surviving worker's loop, fuelled: `none` means the fuel
ran out (the termination theorem shows enough fuel always exists). -/
def workerLoop (g : Graph) (md : Nat) : Nat → BState → Option BState
  | 0, _ => none
  | fuel + 1, s =>
    match s.urlQueue with
    | [] => some s
    | e :: rest =>
      if (vurls s.visited).contains e.url then
        workerLoop g md fuel { s with urlQueue := rest }
      else if md < e.depth then
        workerLoop g md fuel { s with urlQueue := rest }
      else
        workerLoop g md fuel
          { urlQueue := rest ++ admitLinks g (e.url :: vurls s.visited) e,
            visited := (e.url, e.depth) :: s.visited,
            results := s.results ++ [e] }

/-- The state after `crawl` seeded the queue (lines 86-95). -/
def binit (seed : Nat) : BState :=
  { urlQueue := [⟨seed, 0, none⟩], visited := [], results := [] }

/-- Fuel measure for the sequential loop: every iteration strictly
decreases it. -/
def bMeasure (allUrls : Finset Nat) (L : Nat) (s : BState) : Nat :=
  (L + 1) * ((allUrls.filter (fun u => u ∉ vurls s.visited)).card)
    + s.urlQueue.length

/-- `v` is covered at depth bound `D`: already claimed at depth `≤ D`,
or sitting in the frontier at depth `≤ D`. -/
def Cover (s : BState) (v D : Nat) : Prop :=
  (∃ p ∈ s.visited, p.1 = v ∧ p.2 ≤ D) ∨
  (∃ f ∈ s.urlQueue, f.url = v ∧ f.depth ≤ D)

/-- Adjacent-in-queue depth discipline of sequential BFS: depths are
nondecreasing along the queue and never jump by more than one. -/
def R1 (a b : Entry) : Prop := a.depth ≤ b.depth ∧ b.depth ≤ a.depth + 1

/-- The BFS invariant of the sequential loop: the queue respects the
depth discipline; every claim depth is below every queued depth (claims
happen in nondecreasing depth order); every claim is within the bound
and on an actual path; every queued entry is on an actual path; and the
links of every claimed page whose successors are still in bound are
covered at the claim depth plus one. -/
def BInv (g : Graph) (md seed : Nat) (s : BState) : Prop :=
  s.urlQueue.Pairwise R1 ∧
  (∀ p ∈ s.visited, ∀ f ∈ s.urlQueue, p.2 ≤ f.depth) ∧
  (∀ p ∈ s.visited, p.2 ≤ md ∧ Path g seed p.1 p.2) ∧
  (∀ f ∈ s.urlQueue, Path g seed f.url f.depth) ∧
  (∀ p ∈ s.visited, p.2 + 1 ≤ md → ∀ v ∈ g.links p.1,
    isSameOrigin g v (g.origin p.1) = true → Cover s v (p.2 + 1))

theorem admitLinks_elim {g : Graph} {vs : List Nat} {e f : Entry}
    (hf : f ∈ admitLinks g vs e) :
    f.url ∈ g.links e.url ∧ f.depth = e.depth + 1 ∧
      vs.contains f.url = false ∧
      isSameOrigin g f.url (g.origin e.url) = true := by
  simp only [admitLinks, List.mem_map, List.mem_filter] at hf
  obtain ⟨v, ⟨hvl, hcond⟩, rfl⟩ := hf
  rcases Bool.and_eq_true_iff.mp hcond with ⟨hnv, hso⟩
  exact ⟨hvl, rfl, by simpa using hnv, hso⟩

theorem mem_admitLinks {g : Graph} {vs : List Nat} {e : Entry} {v : Nat}
    (hvl : v ∈ g.links e.url) (hnv : vs.contains v = false)
    (hso : isSameOrigin g v (g.origin e.url) = true) :
    (⟨v, e.depth + 1, some e.url⟩ : Entry) ∈ admitLinks g vs e := by
  simp only [admitLinks, List.mem_map, List.mem_filter]
  exact ⟨v, ⟨hvl, by simp [hso, contains_false_iff.mp hnv]⟩, rfl⟩

/-- The loop only ever returns with an empty frontier: line 116 is its
sole exit. -/
theorem workerLoop_queue_empty {g : Graph} {md : Nat} :
    ∀ {fuel : Nat} {s s' : BState}, workerLoop g md fuel s = some s' →
      s'.urlQueue = [] := by
  intro fuel
  induction fuel with
  | zero => intro s s' h; exact absurd h (by simp [workerLoop])
  | succ fuel ih =>
    intro s s' h
    simp only [workerLoop] at h
    split at h
    · rename_i hq
      injection h with h
      rw [← h, hq]
    · split at h
      · exact ih h
      · split at h
        · exact ih h
        · exact ih h

/-- Visited pairs are never removed. -/
theorem workerLoop_visited_mono {g : Graph} {md : Nat} :
    ∀ {fuel : Nat} {s s' : BState}, workerLoop g md fuel s = some s' →
      ∀ p ∈ s.visited, p ∈ s'.visited := by
  intro fuel
  induction fuel with
  | zero => intro s s' h; exact absurd h (by simp [workerLoop])
  | succ fuel ih =>
    intro s s' h p hp
    simp only [workerLoop] at h
    split at h
    · injection h with h
      rw [← h]
      exact hp
    · split at h
      · exact ih h p hp
      · split at h
        · exact ih h p hp
        · exact ih h p (List.mem_cons_of_mem _ hp)

theorem binv_skip_visited {g : Graph} {md seed : Nat} {s : BState} {e : Entry}
    {rest : List Entry} (hq : s.urlQueue = e :: rest)
    (hv : (vurls s.visited).contains e.url = true)
    (hinv : BInv g md seed s) : BInv g md seed { s with urlQueue := rest } := by
  obtain ⟨hpw, hcin, hvd, hqp, hclosed⟩ := hinv
  rw [hq] at hpw hcin hqp
  refine ⟨(List.pairwise_cons.mp hpw).2, ?_, hvd, ?_, ?_⟩
  · intro p hp f hf
    exact hcin p hp f (List.mem_cons_of_mem _ hf)
  · intro f hf
    exact hqp f (List.mem_cons_of_mem _ hf)
  · intro p hp hple v hvl hso
    rcases hclosed p hp hple v hvl hso with ⟨p', hp'm, hp'1, hp'2⟩ | ⟨f, hfm, hf1, hf2⟩
    · exact Or.inl ⟨p', hp'm, hp'1, hp'2⟩
    · rw [hq] at hfm
      rcases List.mem_cons.mp hfm with rfl | hfm
      · obtain ⟨p'', hp''m, hp''1⟩ := List.mem_map.mp (List.elem_iff.mp hv)
        have hle : p''.2 ≤ f.depth :=
          hcin p'' hp''m f (List.mem_cons_self _ _)
        exact Or.inl ⟨p'', hp''m, by rw [hp''1, hf1], by omega⟩
      · exact Or.inr ⟨f, hfm, hf1, hf2⟩

theorem binv_skip_depth {g : Graph} {md seed : Nat} {s : BState} {e : Entry}
    {rest : List Entry} (hq : s.urlQueue = e :: rest)
    (hd : md < e.depth)
    (hinv : BInv g md seed s) : BInv g md seed { s with urlQueue := rest } := by
  obtain ⟨hpw, hcin, hvd, hqp, hclosed⟩ := hinv
  rw [hq] at hpw hcin hqp
  refine ⟨(List.pairwise_cons.mp hpw).2, ?_, hvd, ?_, ?_⟩
  · intro p hp f hf
    exact hcin p hp f (List.mem_cons_of_mem _ hf)
  · intro f hf
    exact hqp f (List.mem_cons_of_mem _ hf)
  · intro p hp hple v hvl hso
    rcases hclosed p hp hple v hvl hso with ⟨p', hp'm, hp'1, hp'2⟩ | ⟨f, hfm, hf1, hf2⟩
    · exact Or.inl ⟨p', hp'm, hp'1, hp'2⟩
    · rw [hq] at hfm
      rcases List.mem_cons.mp hfm with rfl | hfm
      · exact absurd hf2 (by omega)
      · exact Or.inr ⟨f, hfm, hf1, hf2⟩

theorem binv_claim {g : Graph} {md seed : Nat} {s : BState} {e : Entry}
    {rest : List Entry} (hq : s.urlQueue = e :: rest)
    (hv : (vurls s.visited).contains e.url = false)
    (hd : e.depth ≤ md)
    (hinv : BInv g md seed s) :
    BInv g md seed
      { urlQueue := rest ++ admitLinks g (e.url :: vurls s.visited) e,
        visited := (e.url, e.depth) :: s.visited,
        results := s.results ++ [e] } := by
  obtain ⟨hpw, hcin, hvd, hqp, hclosed⟩ := hinv
  rw [hq] at hpw hcin hqp
  have hpw' := List.pairwise_cons.mp hpw
  have hpathe : Path g seed e.url e.depth := hqp e (List.mem_cons_self _ _)
  refine ⟨?_, ?_, ?_, ?_, ?_⟩
  · rw [List.pairwise_append]
    refine ⟨hpw'.2, ?_, ?_⟩
    · apply List.pairwise_of_forall_mem_list
      intro a ha b hb
      have ha' := (admitLinks_elim ha).2.1
      have hb' := (admitLinks_elim hb).2.1
      exact ⟨by omega, by omega⟩
    · intro a ha b hb
      have hra := hpw'.1 a ha
      have hb' := (admitLinks_elim hb).2.1
      obtain ⟨hra1, hra2⟩ := hra
      exact ⟨by omega, by omega⟩
  · intro p hp f hf
    rcases List.mem_cons.mp hp with rfl | hp
    · rcases List.mem_append.mp hf with hf | hf
      · exact (hpw'.1 f hf).1
      · have := (admitLinks_elim hf).2.1
        omega
    · rcases List.mem_append.mp hf with hf | hf
      · exact hcin p hp f (List.mem_cons_of_mem _ hf)
      · have h1 := hcin p hp e (List.mem_cons_self _ _)
        have h2 := (admitLinks_elim hf).2.1
        omega
  · intro p hp
    rcases List.mem_cons.mp hp with rfl | hp
    · exact ⟨hd, hpathe⟩
    · exact hvd p hp
  · intro f hf
    rcases List.mem_append.mp hf with hf | hf
    · exact hqp f (List.mem_cons_of_mem _ hf)
    · have he := admitLinks_elim hf
      have hpf : Path g seed f.url (e.depth + 1) := Path.step hpathe he.1
      rw [he.2.1]
      exact hpf
  · intro p hp hple v hvl hso
    rcases List.mem_cons.mp hp with rfl | hp
    · by_cases hvv : (e.url :: vurls s.visited).contains v = true
      · rcases List.mem_cons.mp (List.elem_iff.mp hvv) with rfl | hmem
        · exact Or.inl ⟨(e.url, e.depth), List.mem_cons_self _ _, rfl, by omega⟩
        · obtain ⟨p'', hp''m, hp''1⟩ := List.mem_map.mp hmem
          have hle : p''.2 ≤ e.depth := hcin p'' hp''m e (List.mem_cons_self _ _)
          exact Or.inl ⟨p'', List.mem_cons_of_mem _ hp''m, hp''1, by omega⟩
      · have hvv' := Bool.eq_false_iff.mpr hvv
        refine Or.inr ⟨⟨v, e.depth + 1, some e.url⟩, ?_, rfl, le_refl _⟩
        exact List.mem_append_right _ (mem_admitLinks hvl hvv' hso)
    · rcases hclosed p hp hple v hvl hso with ⟨p', hp'm, hp'1, hp'2⟩ | ⟨f, hfm, hf1, hf2⟩
      · exact Or.inl ⟨p', List.mem_cons_of_mem _ hp'm, hp'1, hp'2⟩
      · rw [hq] at hfm
        rcases List.mem_cons.mp hfm with rfl | hfm
        · exact Or.inl ⟨(f.url, f.depth), List.mem_cons_self _ _, hf1, hf2⟩
        · exact Or.inr ⟨f, List.mem_append_left _ hfm, hf1, hf2⟩

theorem binv_run {g : Graph} {md seed : Nat} :
    ∀ {fuel : Nat} {s s' : BState}, workerLoop g md fuel s = some s' →
      BInv g md seed s → BInv g md seed s' := by
  intro fuel
  induction fuel with
  | zero => intro s s' h; exact absurd h (by simp [workerLoop])
  | succ fuel ih =>
    intro s s' h hinv
    simp only [workerLoop] at h
    split at h
    · rename_i hq
      injection h with h
      rw [← h]
      exact hinv
    · rename_i e rest hq
      split at h
      · rename_i hv
        exact ih h (binv_skip_visited hq hv hinv)
      · rename_i hv
        split at h
        · rename_i hd
          exact ih h (binv_skip_depth hq hd hinv)
        · rename_i hd
          exact ih h
            (binv_claim hq (Bool.eq_false_iff.mpr hv) (Nat.le_of_not_lt hd) hinv)

/-- Drain: every queued entry within the depth bound ends up claimed at
a depth no larger than its queued depth. -/
theorem workerLoop_drain {g : Graph} {md seed : Nat} :
    ∀ {fuel : Nat} {s s' : BState}, BInv g md seed s →
      workerLoop g md fuel s = some s' →
      ∀ e ∈ s.urlQueue, e.depth ≤ md →
        ∃ p ∈ s'.visited, p.1 = e.url ∧ p.2 ≤ e.depth := by
  intro fuel
  induction fuel with
  | zero => intro s s' _ h; exact absurd h (by simp [workerLoop])
  | succ fuel ih =>
    intro s s' hinv h e he hdep
    simp only [workerLoop] at h
    split at h
    · rename_i hq
      rw [hq] at he
      exact absurd he (by simp)
    · rename_i e0 rest hq
      rw [hq] at he
      split at h
      · rename_i hv
        rcases List.mem_cons.mp he with rfl | he'
        · obtain ⟨p, hpm, hp1⟩ := List.mem_map.mp (List.elem_iff.mp hv)
          have hple : p.2 ≤ e.depth :=
            hinv.2.1 p hpm e (by rw [hq]; exact List.mem_cons_self _ _)
          exact ⟨p, workerLoop_visited_mono h p hpm, hp1, hple⟩
        · exact ih (binv_skip_visited hq hv hinv) h e he' hdep
      · rename_i hv
        split at h
        · rename_i hd
          rcases List.mem_cons.mp he with rfl | he'
          · exact absurd hdep (by omega)
          · exact ih (binv_skip_depth hq hd hinv) h e he' hdep
        · rename_i hd
          have hv' := Bool.eq_false_iff.mpr hv
          have hd' := Nat.le_of_not_lt hd
          rcases List.mem_cons.mp he with rfl | he'
          · refine ⟨(e.url, e.depth), ?_, rfl, le_refl _⟩
            exact workerLoop_visited_mono h _ (List.mem_cons_self _ _)
          · exact ih (binv_claim hq hv' hd' hinv) h e
              (List.mem_append_left _ he') hdep

/-- URLs in play stay inside the finite universe. -/
def BWF (allUrls : Finset Nat) (s : BState) : Prop :=
  ∀ e ∈ s.urlQueue, e.url ∈ allUrls

/-- Termination of the sequential loop: any fuel above the measure of
the starting state suffices. -/
theorem workerLoop_some {g : Graph} {md : Nat} {allUrls : Finset Nat} {L : Nat}
    (hclosed : ∀ u ∈ allUrls, ∀ v ∈ g.links u, v ∈ allUrls)
    (hlen : ∀ u ∈ allUrls, (g.links u).length ≤ L) :
    ∀ (fuel : Nat) (s : BState), BWF allUrls s → bMeasure allUrls L s < fuel →
      ∃ s', workerLoop g md fuel s = some s' := by
  intro fuel
  induction fuel with
  | zero => intro s _ hm; omega
  | succ fuel ih =>
    intro s hwf hm
    cases hq : s.urlQueue with
    | nil =>
      refine ⟨s, ?_⟩
      simp only [workerLoop]
      rw [hq]
    | cons e rest =>
      have hql := congrArg List.length hq
      simp only [List.length_cons] at hql
      by_cases hv : (vurls s.visited).contains e.url = true
      · have hwfr : BWF allUrls { s with urlQueue := rest } :=
          fun f hf => hwf f (by rw [hq]; exact List.mem_cons_of_mem _ hf)
        have hmr : bMeasure allUrls L { s with urlQueue := rest } < fuel := by
          simp only [bMeasure] at hm ⊢
          omega
        obtain ⟨s', hs'⟩ := ih _ hwfr hmr
        refine ⟨s', ?_⟩
        simp only [workerLoop]
        rw [hq]
        show (if (vurls s.visited).contains e.url = true then _ else _) = _
        rw [if_pos hv]
        exact hs'
      · by_cases hd : md < e.depth
        · have hwfr : BWF allUrls { s with urlQueue := rest } :=
            fun f hf => hwf f (by rw [hq]; exact List.mem_cons_of_mem _ hf)
          have hmr : bMeasure allUrls L { s with urlQueue := rest } < fuel := by
            simp only [bMeasure] at hm ⊢
            omega
          obtain ⟨s', hs'⟩ := ih _ hwfr hmr
          refine ⟨s', ?_⟩
          simp only [workerLoop]
          rw [hq]
          show (if (vurls s.visited).contains e.url = true then _ else _) = _
          rw [if_neg hv, if_pos hd]
          exact hs'
        · have hv' : (vurls s.visited).contains e.url = false :=
            Bool.eq_false_iff.mpr hv
          have hemem : e.url ∈ allUrls :=
            hwf e (by rw [hq]; exact List.mem_cons_self _ _)
          have hvv : vurls ((e.url, e.depth) :: s.visited) =
              e.url :: vurls s.visited := rfl
          have hwfr : BWF allUrls
              { urlQueue := rest ++ admitLinks g (e.url :: vurls s.visited) e,
                visited := (e.url, e.depth) :: s.visited,
                results := s.results ++ [e] } := by
            intro f hf
            rcases List.mem_append.mp hf with hf | hf
            · exact hwf f (by rw [hq]; exact List.mem_cons_of_mem _ hf)
            · exact hclosed _ hemem _ (admitLinks_url_mem hf)
          have hmr : bMeasure allUrls L
              { urlQueue := rest ++ admitLinks g (e.url :: vurls s.visited) e,
                visited := (e.url, e.depth) :: s.visited,
                results := s.results ++ [e] } < fuel := by
            have hcard : (allUrls.filter
                  (fun u => u ∉ e.url :: vurls s.visited)).card <
                (allUrls.filter (fun u => u ∉ vurls s.visited)).card := by
              apply Finset.card_lt_card
              have hsub : (allUrls.filter
                    (fun u => u ∉ e.url :: vurls s.visited)) ⊆
                  (allUrls.filter (fun u => u ∉ vurls s.visited)) := by
                intro x hx
                rw [Finset.mem_filter] at hx ⊢
                exact ⟨hx.1, fun hmem => hx.2 (List.mem_cons_of_mem _ hmem)⟩
              rw [Finset.ssubset_iff_of_subset hsub]
              exact ⟨e.url,
                Finset.mem_filter.mpr ⟨hemem, contains_false_iff.mp hv'⟩, by simp⟩
            have hmul : (L + 1) * ((allUrls.filter
                  (fun u => u ∉ e.url :: vurls s.visited)).card) + (L + 1) ≤
                (L + 1) * ((allUrls.filter
                  (fun u => u ∉ vurls s.visited)).card) := by
              rw [← Nat.mul_succ]
              exact Nat.mul_le_mul_left _ hcard
            have hadm : (admitLinks g (e.url :: vurls s.visited) e).length ≤ L :=
              le_trans (admitLinks_length_le g _ e) (hlen _ hemem)
            simp only [bMeasure, hvv, List.length_append] at hm ⊢
            generalize hA : (L + 1) * ((allUrls.filter
              (fun u => u ∉ e.url :: vurls s.visited)).card) = A at hmul ⊢
            generalize hB : (L + 1) * ((allUrls.filter
              (fun u => u ∉ vurls s.visited)).card) = B at hmul hm ⊢
            omega
          obtain ⟨s', hs'⟩ := ih _ hwfr hmr
          refine ⟨s', ?_⟩
          simp only [workerLoop]
          rw [hq]
          show (if (vurls s.visited).contains e.url = true then _ else _) = _
          rw [if_neg hv, if_neg hd]
          exact hs'

theorem path_mem_allUrls {g : Graph} {seed : Nat} {allUrls : Finset Nat}
    (hseed : seed ∈ allUrls)
    (hclosed : ∀ u ∈ allUrls, ∀ v ∈ g.links u, v ∈ allUrls) :
    ∀ {u d : Nat}, Path g seed u d → u ∈ allUrls := by
  intro u d h
  induction h with
  | refl => exact hseed
  | step hp hl ih => exact hclosed _ ih _ hl

/-- Completeness of sequential BFS: in the final (drained) state, every
URL reachable within the depth bound is claimed at a depth no larger
than its path length.  Uses only the final state's invariant: the
closure clause covers each hop, and the empty queue forces coverage
through the visited set. -/
theorem workerLoop_complete_aux {g : Graph} {md seed : Nat}
    {allUrls : Finset Nat}
    (hseed : seed ∈ allUrls)
    (hclosed : ∀ u ∈ allUrls, ∀ v ∈ g.links u, v ∈ allUrls)
    (hso : ∀ u ∈ allUrls, ∀ v ∈ g.links u, isSameOrigin g v (g.origin u) = true)
    {final : BState} (hqe : final.urlQueue = [])
    (hinv : BInv g md seed final)
    (hseedvis : ∃ p ∈ final.visited, p.1 = seed ∧ p.2 ≤ 0) :
    ∀ {v d : Nat}, Path g seed v d → d ≤ md →
      ∃ p ∈ final.visited, p.1 = v ∧ p.2 ≤ d := by
  intro v d hpath
  induction hpath with
  | refl => intro _; exact hseedvis
  | step hp hl ih =>
    rename_i u v' du
    intro hdm
    obtain ⟨p, hpm, hp1, hp2⟩ := ih (by omega)
    have humem : u ∈ allUrls := path_mem_allUrls hseed hclosed hp
    have hso' : isSameOrigin g v' (g.origin u) = true := hso u humem v' hl
    have hcov := hinv.2.2.2.2 p hpm (by omega) v' (by rw [hp1]; exact hl)
      (by rw [hp1]; exact hso')
    rcases hcov with ⟨p', hp'm, hp'1, hp'2⟩ | ⟨f, hfm, -, -⟩
    · exact ⟨p', hp'm, hp'1, by omega⟩
    · rw [hqe] at hfm
      exact absurd hfm (by simp)

/-! ## Concrete instances used by counterexamples and witnesses -/

/-- A single-origin demonstration graph: 0 links to 1 and 2, 1 links to
4, 2 links to 3, 3 links to 4, 4 links to 5.  Page 4 is thus reachable
from the seed 0 both in 2 hops (0-1-4) and in 3 hops (0-2-3-4), and 5
only through 4, at minimum 3 hops. -/
def cg : Graph :=
  { links := fun u => if u = 0 then [1, 2] else if u = 1 then [4]
      else if u = 2 then [3] else if u = 3 then [4] else if u = 4 then [5] else [],
    origin := fun _ => 0,
    host := fun _ => 0,
    parseable := fun _ => true }

/-- A complete two-worker schedule of the abstract interleaving model on
`cg` with maxDepth 3, ending with both workers done and the queue
empty.  (It keeps worker 1 idle for several steps, which only the
over-approximating model allows — the real program runs sequentially —
so it serves purely as a concrete complete run of the model for the
witnesses below.) -/
def cexTrace : List Label :=
  [.take 0, .finish 0, .wake 0, .take 0, .take 1, .finish 1, .wake 1,
   .take 1, .finish 1, .wake 1, .take 1, .finish 1, .wake 1, .take 1,
   .take 1, .finish 0, .wake 0, .take 0]

/-- The final state of `cexTrace` on `cg`. -/
def cexFinal : CState :=
  { urlQueue := [],
    visitedUrls := [4, 3, 2, 1, 0],
    discoveredUrls := [5, 4, 3, 2, 1, 0],
    results := [⟨0, 0, none⟩, ⟨2, 1, some 0⟩, ⟨3, 2, some 2⟩,
      ⟨4, 3, some 3⟩, ⟨1, 1, some 0⟩],
    errors := [],
    workers := [.done, .done] }

/-- The finite URL universe of `cg`. -/
def allUrlsW : Finset Nat := {0, 1, 2, 3, 4, 5}

/-- A two-origin graph: page 0 (origin 0) links to page 1 (origin 1). -/
def g8 : Graph :=
  { links := fun u => if u = 0 then [1] else [],
    origin := fun u => u,
    host := fun u => u,
    parseable := fun _ => true }

/-- A graph on which URL 9 does not parse. -/
def gbad : Graph :=
  { links := fun _ => [],
    origin := fun _ => 0,
    host := fun _ => 0,
    parseable := fun u => u != 9 }

/-- An instance carrying leftover state from a previous run, including
slow-host markings. -/
def inst9 : Instance :=
  { visitedUrls := [9], discoveredUrls := [9], urlQueue := [⟨9, 9, none⟩],
    results := [⟨9, 9, none⟩], domainsCrawled := [9],
    slowHosts := [7], hostDelays := [(7, 9000)] }

/-- A state in which worker 0 is fetching the seed and worker 1 idles. -/
def s1 : CState :=
  { urlQueue := [], visitedUrls := [0], discoveredUrls := [0], results := [],
    errors := [], workers := [.fetching ⟨0, 0, none⟩, .idle] }

/-! ## The claims -/

/-- C1: over a finite, fully same-origin-reachable link graph, the
crawl run terminates (the fuelled sequential loop — the real execution,
since workers 1..n-1 exit on the empty queue at startup and timing
cannot reorder the one surviving worker's queue operations — succeeds
for any fuel above the initial measure), it is complete only with an
empty Frontier (the loop's sole exit is the empty-queue test of line
116, after which the worker is no longer executing any step), and at
completion the Visited Set equals exactly the set of URLs reachable
from the seed within the depth bound. -/
theorem C1_termination_completeness {g : Graph} {md seed L fuel : Nat}
    {allUrls : Finset Nat}
    (hseed : seed ∈ allUrls)
    (hclosed : ∀ u ∈ allUrls, ∀ v ∈ g.links u, v ∈ allUrls)
    (hlen : ∀ u ∈ allUrls, (g.links u).length ≤ L)
    (hso : ∀ u ∈ allUrls, ∀ v ∈ g.links u, isSameOrigin g v (g.origin u) = true)
    (hfuel : bMeasure allUrls L (binit seed) < fuel) :
    ∃ final : BState, workerLoop g md fuel (binit seed) = some final ∧
      final.urlQueue = [] ∧
      (∀ (fuel' : Nat) (s' : BState),
        workerLoop g md fuel' (binit seed) = some s' → s'.urlQueue = []) ∧
      (∀ v, v ∈ vurls final.visited ↔ ∃ d, d ≤ md ∧ Path g seed v d) := by
  have hwf : BWF allUrls (binit seed) := by
    intro e he
    simp only [binit, List.mem_singleton] at he
    subst he
    exact hseed
  obtain ⟨final, hrun⟩ := workerLoop_some hclosed hlen fuel (binit seed) hwf hfuel
  have hbinit : BInv g md seed (binit seed) := by
    refine ⟨?_, ?_, ?_, ?_, ?_⟩
    · simp [binit]
    · intro p hp; simp [binit] at hp
    · intro p hp; simp [binit] at hp
    · intro f hf
      simp only [binit, List.mem_singleton] at hf
      subst hf
      exact Path.refl
    · intro p hp; simp [binit] at hp
  have hinv := binv_run hrun hbinit
  have hqe := workerLoop_queue_empty hrun
  have hseedvis : ∃ p ∈ final.visited, p.1 = seed ∧ p.2 ≤ 0 :=
    workerLoop_drain hbinit hrun ⟨seed, 0, none⟩ (by simp [binit]) (Nat.zero_le md)
  refine ⟨final, hrun, hqe,
    fun fuel' s' h' => workerLoop_queue_empty h', ?_⟩
  intro v
  constructor
  · intro hv
    obtain ⟨p, hpm, hp1⟩ := List.mem_map.mp hv
    have hpd := hinv.2.2.1 p hpm
    exact ⟨p.2, hpd.1, hp1 ▸ hpd.2⟩
  · rintro ⟨d, hdm, hpath⟩
    obtain ⟨p, hpm, hp1, -⟩ :=
      workerLoop_complete_aux hseed hclosed hso hqe hinv hseedvis hpath hdm
    exact List.mem_map.mpr ⟨p, hpm, hp1⟩

/-- Witness for C1 at the concrete single-origin graph `cg` with
maxDepth 3: fuel 20 exceeds the initial measure, and the final visited
set is exactly the in-bound reachable set. -/
theorem C1_witness :
    (0 ∈ allUrlsW) ∧
    ∃ final : BState, workerLoop cg 3 20 (binit 0) = some final ∧
      final.urlQueue = [] ∧
      (∀ (fuel' : Nat) (s' : BState),
        workerLoop cg 3 fuel' (binit 0) = some s' → s'.urlQueue = []) ∧
      (∀ v, v ∈ vurls final.visited ↔ ∃ d, d ≤ 3 ∧ Path cg 0 v d) :=
  ⟨by decide, @C1_termination_completeness cg 3 0 2 20 allUrlsW (by decide)
    (by decide) (by decide) (by decide) (by decide)⟩

/-- C2: within one crawl run every URL enters the Visited Set at most
once (the visited list stays duplicate-free, and a fetch starts exactly
when its URL is inserted, so no URL is fetched twice — the membership
check and the insertion are a single atomic block between suspension
points); and in a completed run, every admission of a URL within the
depth bound leads to exactly one fetch of that URL. -/
theorem C2_no_double_fetch {g : Graph} {md seed n : Nat} {tr : List Label}
    {s' : CState} (h : run g md (initState seed n) tr = some s') :
    s'.visitedUrls.Nodup ∧
    (terminal s' = true → 1 ≤ n →
      ∀ e ∈ everAdmitted g md (initState seed n) tr, e.depth ≤ md →
        s'.visitedUrls.count e.url = 1) := by
  have hinv := inv_run h (inv_init g md seed n)
  refine ⟨hinv.2.2.2.2, ?_⟩
  intro ht hn e he hd
  have h0 : (initState seed n).workers.get? 0 = some WStatus.idle := by
    cases n with
    | zero => omega
    | succ m => rfl
  have hq : s'.urlQueue = [] :=
    run_terminal_queue (not_terminal_of_get? h0 (by simp)) h ht
  simp only [everAdmitted] at he
  have hmem : e.url ∈ s'.visitedUrls := by
    apply enq_visited h hq e hd
    rcases List.mem_append.mp he with he | he
    · exact Or.inl he
    · exact Or.inr (Or.inl he)
  exact List.count_eq_one_of_mem hinv.2.2.2.2 hmem

/-- Witness for C2 on the complete run `cexTrace`. -/
theorem C2_witness :
    cexFinal.visitedUrls.Nodup ∧
    (terminal cexFinal = true → 1 ≤ 2 →
      ∀ e ∈ everAdmitted cg 3 (initState 0 2) cexTrace, e.depth ≤ 3 →
        cexFinal.visitedUrls.count e.url = 1) :=
  C2_no_double_fetch (show run cg 3 (initState 0 2) cexTrace = some cexFinal from rfl)

theorem backoffs_zero (rd k : Nat) :
    backoffs rd 0 k = (List.range k).map (fun i => rd * 2 ^ i) := by
  rw [backoffs_eq]
  apply List.map_congr_left
  intro i _
  rw [Nat.zero_add]

/-- C3: for the retryable fetch of one URL, if attempts `0..k-1` fail
and attempt `k` succeeds with `k ≤ maxRetries`, then exactly `k` backoff
sleeps of durations `retryDelay*2^0, ..., retryDelay*2^(k-1)` occur in
that order and `k+1` attempts are issued; if every attempt fails,
exactly `maxRetries+1` attempts are issued and the fetch reports
failure, whereupon the worker appends exactly one error signal carrying
the URL and produces no Crawl Result. -/
theorem C3_retry_backoff (outcome : Nat → Bool) (maxRetries retryDelay : Nat) :
    (∀ k, k ≤ maxRetries → (∀ i, i < k → outcome i = false) → outcome k = true →
      fetchAndParseRetry outcome maxRetries retryDelay =
        ((List.range k).map (fun i => retryDelay * 2 ^ i), k + 1, true)) ∧
    ((∀ i, i ≤ maxRetries → outcome i = false) →
      fetchAndParseRetry outcome maxRetries retryDelay =
        ((List.range maxRetries).map (fun i => retryDelay * 2 ^ i),
          maxRetries + 1, false)) ∧
    (∀ (g : Graph) (md : Nat) (s : CState) (i : Nat) (e : Entry),
      s.workers.get? i = some (.fetching e) →
      applyLabel g md s (.fail i) =
        some { s with errors := s.errors ++ [e.url],
                      workers := s.workers.set i .sleeping }) := by
  refine ⟨?_, ?_, ?_⟩
  · intro k hk hfail hsucc
    have := attemptLoop_success outcome retryDelay maxRetries 0 k hk
      (fun i hi => by simpa using hfail i hi) (by simpa using hsucc)
    rw [fetchAndParseRetry, this, backoffs_zero]
  · intro hfail
    have := attemptLoop_failure outcome retryDelay maxRetries 0
      (fun i hi => by simpa using hfail i hi)
    rw [fetchAndParseRetry, this, backoffs_zero]
  · intro g md s i e hw
    simp only [applyLabel]
    rw [hw]

/-- Witness for C3: two failures then success with base delay 1000 gives
sleeps 1000, 2000 and 3 attempts; constant failure with budget 3+1 gives
4 attempts and no success. -/
theorem C3_witness :
    fetchAndParseRetry (fun i => i == 2) 3 1000 = ([1000, 2000], 3, true) ∧
    fetchAndParseRetry (fun _ => false) 3 1000 = ([1000, 2000, 4000], 4, false) := by
  have h1 := (C3_retry_backoff (fun i => i == 2) 3 1000).1 2
    (by omega) (by decide) (by decide)
  have h2 := (C3_retry_backoff (fun _ => false) 3 1000).2.1 (fun i _ => rfl)
  exact ⟨by rw [h1]; rfl, by rw [h2]; rfl⟩

/-- C4 (counterexample): the claim requires marking a host slow when the
measured response time is *greater than or equal to* slowHostThreshold.
The code compares strictly (`responseTime > this.config.slowHostThreshold`,
line 195): a response taking exactly the threshold (15000 ms ≥ 15000 ms)
leaves the host unmarked. -/
theorem C4_counterexample :
    15000 ≥ 15000 ∧
    updateSlow ⟨[], []⟩ 15000 7 15000 = ⟨[], []⟩ ∧
    (updateSlow ⟨[], []⟩ 15000 7 15000).slowHosts.contains 7 = false :=
  ⟨le_refl _, rfl, rfl⟩

/-- C4 (amended): for every successful fetch whose measured response
time is *strictly greater than* slowHostThreshold, the host is marked
slow with recorded delay `min(responseTime, 10000)`; once marked, a host
stays marked across any further updates (monotone within the run); and
every subsequent request attempt to a marked host is preceded by a sleep
of that host's recorded (nonzero) delay. -/
theorem C4_amended {st : HostState} {thr h rt : Nat} (hgt : thr < rt) :
    (updateSlow st thr h rt).slowHosts.contains h = true ∧
    lookupDelay (updateSlow st thr h rt).hostDelays h = some (min rt 10000) ∧
    preSleep (updateSlow st thr h rt) thr h = some (min rt 10000) ∧
    (∀ (st' : HostState) (h' rt' : Nat), st'.slowHosts.contains h = true →
      (updateSlow st' thr h' rt').slowHosts.contains h = true) ∧
    (∀ (st' : HostState) (d : Nat), st'.slowHosts.contains h = true →
      lookupDelay st'.hostDelays h = some d → d ≠ 0 →
      preSleep st' thr h = some d) := by
  obtain ⟨h1, h2⟩ := updateSlow_marks hgt
  have hmin : 1 ≤ min rt 10000 := le_min (by omega) (by omega)
  refine ⟨h1, h2, preSleep_of_marked h1 h2 (by omega), ?_, ?_⟩
  · intro st' h' rt' hm
    exact updateSlow_mono h hm
  · intro st' d hm hd hdne
    exact preSleep_of_marked hm hd hdne

/-- Witness for the amended C4 at threshold 15000 and a 16000 ms
response. -/
theorem C4_amended_witness :
    (updateSlow ⟨[], []⟩ 15000 7 16000).slowHosts.contains 7 = true ∧
    lookupDelay (updateSlow ⟨[], []⟩ 15000 7 16000).hostDelays 7 =
      some (min 16000 10000) ∧
    preSleep (updateSlow ⟨[], []⟩ 15000 7 16000) 15000 7 =
      some (min 16000 10000) ∧
    (∀ (st' : HostState) (h' rt' : Nat), st'.slowHosts.contains 7 = true →
      (updateSlow st' 15000 h' rt').slowHosts.contains 7 = true) ∧
    (∀ (st' : HostState) (d : Nat), st'.slowHosts.contains 7 = true →
      lookupDelay st'.hostDelays 7 = some d → d ≠ 0 →
      preSleep st' 15000 7 = some d) :=
  C4_amended (by omega)

/-- C5 (counterexample): the claim states a discovered link is rejected
(a no-op) when its depth exceeds maxDepth or when the URL is already in
the Discovered Set.  On `cg` with maxDepth 0, after the seed's fetch
both links are appended to the Frontier at depth 1 > 0, and both are
already in the Discovered Set when they are appended (the code adds
every extracted link to `discoveredUrls` during parsing, before the
admission loop runs). -/
theorem C5_counterexample :
    (run cg 0 (initState 0 1) [Label.take 0, Label.finish 0]).map
        (fun s => (s.urlQueue, s.discoveredUrls)) =
      some ([⟨1, 1, some 0⟩, ⟨2, 1, some 0⟩], [2, 1, 0]) := rfl

/-- C5 (amended): after fetching entry `e`, the worker appends exactly
the found links that are not in the Visited Set and whose origin equals
the fetched page's own origin — the Discovered Set is not consulted and
no depth test happens at admission (every extracted link is added to the
Discovered Set during parsing regardless of admission); the depth bound
is enforced later, at dequeue time, where an unvisited entry with depth
exceeding maxDepth is silently dropped. -/
theorem C5_amended {g : Graph} {md : Nat} {s : CState} {i : Nat} {e : Entry}
    (hw : s.workers.get? i = some (.fetching e)) :
    applyLabel g md s (.finish i) =
      some { s with
        urlQueue := s.urlQueue ++ admitLinks g s.visitedUrls e,
        discoveredUrls := addAll s.discoveredUrls (g.links e.url),
        results := s.results ++ [e],
        workers := s.workers.set i .sleeping } ∧
    (∀ v, (⟨v, e.depth + 1, some e.url⟩ : Entry) ∈ admitLinks g s.visitedUrls e ↔
      v ∈ g.links e.url ∧ s.visitedUrls.contains v = false ∧
        isSameOrigin g v (g.origin e.url) = true) ∧
    (∀ (j : Nat) (f : Entry) (rest : List Entry),
      s.workers.get? j = some .idle → s.urlQueue = f :: rest →
      s.visitedUrls.contains f.url = false → md < f.depth →
      applyLabel g md s (.take j) = some { s with urlQueue := rest }) := by
  refine ⟨?_, ?_, ?_⟩
  · simp only [applyLabel]
    rw [hw]
  · intro v
    simp only [admitLinks, List.mem_map, List.mem_filter]
    constructor
    · rintro ⟨a, ⟨hal, hcond⟩, heq⟩
      injection heq with h1 h2 h3
      subst h1
      rcases Bool.and_eq_true_iff.mp hcond with ⟨hnv, hso⟩
      exact ⟨hal, by simpa using hnv, hso⟩
    · rintro ⟨hal, hnv, hso⟩
      exact ⟨v, ⟨hal, by simp [hso, contains_false_iff.mp hnv]⟩, rfl⟩
  · intro j f rest hwj hq hv hd
    simp only [applyLabel]
    rw [hwj, hq]
    show (if s.visitedUrls.contains f.url = true then _ else _) = _
    rw [if_neg (by simp [contains_false_iff.mp hv]), if_pos hd]

/-- Witness for the amended C5 at the concrete state `s1`. -/
theorem C5_amended_witness :
    applyLabel cg 3 s1 (.finish 0) =
      some { s1 with
        urlQueue := s1.urlQueue ++ admitLinks cg s1.visitedUrls ⟨0, 0, none⟩,
        discoveredUrls := addAll s1.discoveredUrls (cg.links 0),
        results := s1.results ++ [⟨0, 0, none⟩],
        workers := s1.workers.set 0 .sleeping } ∧
    (∀ v, (⟨v, 0 + 1, some 0⟩ : Entry) ∈ admitLinks cg s1.visitedUrls ⟨0, 0, none⟩ ↔
      v ∈ cg.links 0 ∧ s1.visitedUrls.contains v = false ∧
        isSameOrigin cg v (cg.origin 0) = true) ∧
    (∀ (j : Nat) (f : Entry) (rest : List Entry),
      s1.workers.get? j = some .idle → s1.urlQueue = f :: rest →
      s1.visitedUrls.contains f.url = false → 3 < f.depth →
      applyLabel cg 3 s1 (.take j) = some { s1 with urlQueue := rest }) :=
  C5_amended rfl

/-- C6: every Crawl Result emitted during a run has depth at most
maxDepth — a result is only pushed after the dequeue block claimed the
entry, and that block skips any entry whose depth exceeds the bound. -/
theorem C6_depth_bound {g : Graph} {md seed n : Nat} {tr : List Label}
    {s' : CState} (h : run g md (initState seed n) tr = some s') :
    ∀ e ∈ s'.results, e.depth ≤ md := by
  have hinv := inv_run h (inv_init g md seed n)
  exact fun e he => (hinv.2.2.1 e he).2

/-- Witness for C6: the deepest result of the run `cexTrace` respects
the bound. -/
theorem C6_witness : (⟨4, 3, some 3⟩ : Entry).depth ≤ 3 :=
  C6_depth_bound (show run cg 3 (initState 0 2) cexTrace = some cexFinal from rfl)
    ⟨4, 3, some 3⟩ (by decide)

/-- C7: every Crawl Result other than the seed's records a URL that was
found among the links of its discovering page, parses, and has the same
origin as that discovering page (same-origin is evaluated against the
discovering page's own origin); a result with no discoverer is the seed
at depth 0. -/
theorem C7_origin {g : Graph} {md seed n : Nat} {tr : List Label}
    {s' : CState} (h : run g md (initState seed n) tr = some s') :
    ∀ e ∈ s'.results,
      (e.disc = none → e.url = seed ∧ e.depth = 0) ∧
      (∀ p, e.disc = some p → e.url ∈ g.links p ∧ g.parseable e.url = true ∧
        g.origin e.url = g.origin p) := by
  have hinv := inv_run h (inv_init g md seed n)
  intro e he
  have hok := (hinv.2.2.1 e he).1
  refine ⟨hok.1, ?_⟩
  intro p hp
  have hlp := hok.2.1 p hp
  have hso := hlp.2
  simp only [isSameOrigin, Bool.and_eq_true, beq_iff_eq] at hso
  exact ⟨hlp.1, hso.1, hso.2⟩

/-- Witness for C7: the result for URL 4 of the run `cexTrace`, which
was discovered on page 3. -/
theorem C7_witness :
    ((⟨4, 3, some 3⟩ : Entry).disc = none → (4 : Nat) = 0 ∧ (3 : Nat) = 0) ∧
    (∀ p, (⟨4, 3, some 3⟩ : Entry).disc = some p →
      (4 : Nat) ∈ cg.links p ∧ cg.parseable 4 = true ∧
        cg.origin 4 = cg.origin p) :=
  C7_origin (show run cg 3 (initState 0 2) cexTrace = some cexFinal from rfl)
    ⟨4, 3, some 3⟩ (by decide)

/-- C8 (counterexample): the claim states the Discovered Set equals the
set of URLs ever admitted to the Frontier.  On the two-origin graph
`g8`, after fetching the seed the cross-origin link 1 is in the
Discovered Set (every extracted link is added during parsing) although
it was never admitted to the Frontier: the only URL ever admitted is the
seed 0. -/
theorem C8_counterexample :
    (run g8 3 (initState 0 1) [Label.take 0, Label.finish 0]).map
        (fun s => (s.discoveredUrls.contains 1, s.urlQueue)) =
      some (true, []) ∧
    (everAdmitted g8 3 (initState 0 1) [Label.take 0, Label.finish 0]).map
        Entry.url = [0] :=
  ⟨rfl, rfl⟩

/-- C8 (amended): the Discovered Set contains the seed and every
extracted http link; it is therefore a superset of the Visited Set and
of the set of URLs ever admitted to the Frontier (but not equal to the
latter: cross-origin links enter it without being admitted); and it is
used only for reporting — no transition's frontier, visited set or
results depend on its contents. -/
theorem C8_amended {g : Graph} {md seed n : Nat} {tr : List Label}
    {s' : CState} (h : run g md (initState seed n) tr = some s') :
    (∀ u ∈ s'.visitedUrls, u ∈ s'.discoveredUrls) ∧
    (∀ e ∈ everAdmitted g md (initState seed n) tr, e.url ∈ s'.discoveredUrls) ∧
    (∀ (s : CState) (l : Label) (d' : List Nat),
      (applyLabel g md { s with discoveredUrls := d' } l).map
          (fun t => (t.urlQueue, t.visitedUrls, t.results)) =
        (applyLabel g md s l).map
          (fun t => (t.urlQueue, t.visitedUrls, t.results))) := by
  have hinv := inv_run h (inv_init g md seed n)
  refine ⟨fun u hu => (hinv.2.2.2.1 u hu).2, ?_,
    fun s l d' => applyLabel_discovered_indep g md s l d'⟩
  intro e he
  simp only [everAdmitted] at he
  rcases List.mem_append.mp he with he | he
  · simp only [initState, List.mem_singleton] at he
    subst he
    exact run_discovered_mono h _ (by simp [initState])
  · exact admittedDuring_discovered h e he

/-- Witness for the amended C8 on the complete run `cexTrace`. -/
theorem C8_amended_witness :
    (∀ u ∈ (cexFinal).visitedUrls, u ∈ (cexFinal).discoveredUrls) ∧
    (∀ e ∈ everAdmitted cg 3 (initState 0 2) cexTrace,
      e.url ∈ (cexFinal).discoveredUrls) ∧
    (∀ (s : CState) (l : Label) (d' : List Nat),
      (applyLabel cg 3 { s with discoveredUrls := d' } l).map
          (fun t => (t.urlQueue, t.visitedUrls, t.results)) =
        (applyLabel cg 3 s l).map
          (fun t => (t.urlQueue, t.visitedUrls, t.results))) :=
  C8_amended (show run cg 3 (initState 0 2) cexTrace = some cexFinal from rfl)

/-- C9 (counterexample): the claim states that starting a crawl resets
all run-owned state including Host State.  Starting a run on an instance
carrying slow-host markings clears the visited/discovered/frontier/
results/domains fields but leaves `slowHosts` and `hostDelays` exactly as
they were — the markings survive into the new run. -/
theorem C9_counterexample :
    crawlStart cg inst9 0 = Except.ok
      { visitedUrls := [], discoveredUrls := [0], urlQueue := [⟨0, 0, none⟩],
        results := [], domainsCrawled := [0],
        slowHosts := [7], hostDelays := [(7, 9000)] } ∧
    inst9.slowHosts = [7] ∧ inst9.hostDelays = [(7, 9000)] :=
  ⟨rfl, rfl, rfl⟩

/-- C9 (amended): starting a crawl run resets the Visited Set, the
Discovered Set, the Frontier, the Results and the crawled-domain set to
their fresh seeded values regardless of the instance's previous state,
but the slow-host markings and per-host delays are *not* reset: they
persist unchanged into the new run. -/
theorem C9_amended {g : Graph} (inst : Instance) (seed : Nat)
    (hp : g.parseable seed = true) :
    crawlStart g inst seed = Except.ok
      { visitedUrls := [], discoveredUrls := [seed],
        urlQueue := [⟨seed, 0, none⟩], results := [],
        domainsCrawled := [g.host seed],
        slowHosts := inst.slowHosts, hostDelays := inst.hostDelays } := by
  simp only [crawlStart, if_pos hp]

/-- Witness for the amended C9 at the instance `inst9`. -/
theorem C9_amended_witness :
    crawlStart cg inst9 0 = Except.ok
      { visitedUrls := [], discoveredUrls := [0],
        urlQueue := [⟨0, 0, none⟩], results := [],
        domainsCrawled := [cg.host 0],
        slowHosts := inst9.slowHosts, hostDelays := inst9.hostDelays } :=
  C9_amended inst9 0 rfl

/-- C10: if the seed URL does not parse, `crawl` fails with the
`Invalid seed URL` error before the workers are created: no schedule is
run, so no fetch occurs and no Crawl Result is produced, for any
configuration and any schedule; the synchronous reset-and-seed prefix
reports the same error. -/
theorem C10_invalid_seed {g : Graph} {seed : Nat}
    (hp : g.parseable seed = false) :
    (∀ (md n : Nat) (tr : List Label),
      crawl g md n seed tr = Except.error "Invalid seed URL") ∧
    (∀ inst : Instance, crawlStart g inst seed = Except.error "Invalid seed URL") := by
  constructor
  · intro md n tr
    simp [crawl, hp]
  · intro inst
    simp [crawlStart, hp]

/-- Witness for C10: URL 9 does not parse on `gbad`. -/
theorem C10_witness :
    (∀ (md n : Nat) (tr : List Label),
      crawl gbad md n 9 tr = Except.error "Invalid seed URL") ∧
    (∀ inst : Instance, crawlStart gbad inst 9 = Except.error "Invalid seed URL") :=
  C10_invalid_seed rfl

end Crawler
